import Mathlib

/-!
Verification of the `chatbot` MCP tool server (`src/server.py`, `src/client.py`)
against its natural-language specification.

The development shallowly embeds the Python code:

* the filesystem seen by `os.walk` is a finite tree of entries (`Entry`);
  `osWalk` models `os.walk(root)` with its default arguments
  (`topdown=True`, `onerror=None`, `followlinks=False`): a directory whose
  `scandir` fails (permission denied, vanished, not a directory, missing) is
  silently skipped together with its whole subtree, and the walk continues;
* `difflib.get_close_matches` (the function `search_file_by_name` calls,
  although `server.py` never imports it) is embedded faithfully from the
  CPython standard-library source, including `SequenceMatcher`'s
  `find_longest_match` dynamic programming loop, the `real_quick_ratio` /
  `quick_ratio` / `ratio` gating, the autojunk rule for sequences of length
  at least 200, and `heapq.nlargest`'s stable descending selection.
  Python's `float` scores are modelled as exact rationals (`ℚ`); for the
  string lengths arising here the `>= cutoff` comparisons agree;
* the CSV record sinks (`add_log_to_journal`, `add_log_to_file`,
  `add_reminder`) are modelled as pure functions from the previous file
  contents (`Option String`, `none` = file absent) to the new contents;
  the ambient timestamp `datetime.datetime.now()` is an explicit parameter;
* Python name-resolution errors are modelled with `PyErr`:
  `search_file_by_name` evaluates the undefined global
  `get_close_matches` (no `difflib` import exists in `server.py`), and
  `analyze_mood_trend` calls `datetime.strptime` after line 13's
  `import datetime` has rebound the module-level name `datetime` from the
  class (line 4) to the module, which has no `strptime` attribute.
-/

namespace Chatbot

/-- Runtime errors a modelled Python call can raise. -/
inductive PyErr where
  | nameError (name : String)
  | attributeError (msg : String)
  | valueError (msg : String)
  | keyError (key : String)
  deriving Repr, DecidableEq

/-! ## Filesystem model and `os.walk` -/

mutual
/-- A filesystem entry. `readable = false` on a directory models a directory
whose `os.scandir` raises (permission denied, I/O error, vanished mid-walk). -/
inductive Entry where
  | file (name : String)
  | dir (name : String) (readable : Bool) (children : EntryList)

/-- Children of a directory, in the order `os.scandir` yields them. -/
inductive EntryList where
  | nil
  | cons (e : Entry) (rest : EntryList)
end

/-- Convenience constructor for directory listings. -/
def el : List Entry → EntryList
  | [] => .nil
  | e :: es => .cons e (el es)

/-- `os.path.join` on Windows (the code's default root is `C:\`): `ntpath.join`
inserts a separator unless the left part is empty or already ends with a
separator or a drive colon.  File names never start with a separator here. -/
def joinPath (a b : String) : String :=
  match a.data.getLast? with
  | none => a ++ b
  | some c => if c = '\\' || c = '/' || c = ':' then a ++ b else a ++ "\\" ++ b

/-- The `filenames` component `os.walk` reports for a directory listing:
the names of the regular-file entries, in listing order. -/
def filesOf : EntryList → List String
  | .nil => []
  | .cons (.file n) rest => n :: filesOf rest
  | .cons (.dir _ _ _) rest => filesOf rest

mutual
/-- `os.walk(p)` over the entry found at path `p`, `topdown=True`,
`onerror=None`: walking a regular file or an unreadable directory yields
nothing (the `scandir` error is swallowed and the subtree skipped); a
readable directory yields `(p, filenames)` and then the walks of its
subdirectories in listing order.  Only the `dirpath` and `filenames`
components are modelled; `server.py` ignores `dirnames`. -/
def osWalk (p : String) : Entry → List (String × List String)
  | .file _ => []
  | .dir _ false _ => []
  | .dir _ true cs => (p, filesOf cs) :: osWalkList p cs

/-- The concatenated walks of the subdirectories in a listing. -/
def osWalkList (p : String) : EntryList → List (String × List String)
  | .nil => []
  | .cons (.file _) rest => osWalkList p rest
  | .cons (.dir n r cs) rest => osWalk (joinPath p n) (.dir n r cs) ++ osWalkList p rest
end

/-- Lines 269–275 of `server.py`: the `candidates` list, one
`(file, os.path.join(dirpath, file))` pair per file reported by the walk,
in walk order.  A `none` root models a `root_dir` that does not exist. -/
def collectCandidates (rootPath : String) (root : Option Entry) : List (String × String) :=
  match root with
  | none => []
  | some e => (osWalk rootPath e).flatMap (fun pr => pr.2.map (fun f => (f, joinPath pr.1 f)))

mutual
/-- Number of files `os.walk` actually reaches below an entry
(files inside unreadable directories are never reported). -/
def reachableFiles : Entry → Nat
  | .file _ => 0
  | .dir _ false _ => 0
  | .dir _ true cs => reachableFilesList cs

/-- Reachable files of a listing: its own files plus those of its subtrees. -/
def reachableFilesList : EntryList → Nat
  | .nil => 0
  | .cons (.file _) rest => 1 + reachableFilesList rest
  | .cons (.dir n r cs) rest => reachableFiles (.dir n r cs) + reachableFilesList rest
end

/-- Reachable files below an optional root. -/
def reachableFilesRoot : Option Entry → Nat
  | none => 0
  | some e => reachableFiles e

mutual
/-- Remove every unreadable directory (with its whole subtree) from a tree.
The walk of the pruned tree is the walk of the original: this is the
fault-isolation contract of `os.walk` with `onerror=None`. -/
def pruneUnreadable : Entry → Entry
  | .file n => .file n
  | .dir n false _ => .dir n false .nil
  | .dir n true cs => .dir n true (pruneUnreadableList cs)

/-- Prune a listing: drop unreadable subdirectories, recurse into the rest. -/
def pruneUnreadableList : EntryList → EntryList
  | .nil => .nil
  | .cons (.file n) rest => .cons (.file n) (pruneUnreadableList rest)
  | .cons (.dir _ false _) rest => pruneUnreadableList rest
  | .cons (.dir n true cs) rest => .cons (.dir n true (pruneUnreadableList cs)) (pruneUnreadableList rest)
end

/-! ## `difflib` (CPython standard library)

`search_file_by_name` calls `get_close_matches(filename, file_names, n=10,
cutoff=0.6)`.  `server.py` never imports the name (see the claims about
that bug), but the call is unambiguously `difflib.get_close_matches`, whose
semantics are embedded here from the CPython source.

`get_close_matches` builds `SequenceMatcher(isjunk=None)` with `seq2 = word`
and, for each possibility `x`, sets `seq1 = x` and keeps `x` when
`real_quick_ratio() >= cutoff and quick_ratio() >= cutoff and
ratio() >= cutoff`, recording `(ratio, x)`; finally
`heapq.nlargest(n, result)` selects the best `n` pairs.

Because `isjunk is None`, the junk set `bjunk` is always empty (the
autojunk rule populates `bpopular`, which only prunes `b2j`, not `bjunk`);
the two junk-extension loops of `find_longest_match` therefore never run
and are omitted, and the two non-junk extension loops have their
`not isbjunk(...)` conjunct identically true. -/

/-- Indexing used throughout: `aget a i` is `a[i]` for `i < a.length`
(all accesses below are in range; the default is irrelevant). -/
def aget (l : List Char) (i : Nat) : Char := l.getD i ' '

/-- Number of occurrences of `c` in `b`. -/
def countIn (b : List Char) (c : Char) : Nat := (b.filter (fun x => x = c)).length

/-- The ascending list of positions of `c` in `b` (the `b2j` chains built by
`SequenceMatcher.__chain_b` before the autojunk purge). -/
def positions (b : List Char) (c : Char) : List Nat :=
  (List.range b.length).filter (fun i => aget b i = c)

/-- `b2j` after `__chain_b`'s autojunk step: when `len(b) >= 200`, characters
occurring more than `len(b) // 100 + 1` times are popular and are removed
from `b2j` (their position list becomes empty). -/
def b2j (b : List Char) (c : Char) : List Nat :=
  if 200 ≤ b.length ∧ b.length / 100 + 1 < countIn b c then [] else positions b c

/-- `difflib._calculate_ratio(matches, length)`: `2.0*matches/length`, and
`1.0` for two empty sequences.  Python's `float` is modelled exactly in `ℚ`
(`mkRat` is the normalised quotient, equal to `(2*ms : ℚ) / length`). -/
def calcRatio (ms length : Nat) : ℚ :=
  if length = 0 then 1 else mkRat (2 * ms : Nat) length

/-- `SequenceMatcher.real_quick_ratio` for `a = seq1`, `b = seq2`. -/
def realQuickRatio (a b : List Char) : ℚ :=
  calcRatio (min a.length b.length) (a.length + b.length)

/-- The matching count of `SequenceMatcher.quick_ratio`: one loop over `a`
decrementing per-character availability taken from `b`'s counts. -/
def quickMatches (a b : List Char) : Nat :=
  (a.foldl
    (fun (st : (Char → Option Int) × Nat) elt =>
      let numb : Int := match st.1 elt with
        | some v => v
        | none => (countIn b elt : Int)
      ((fun c => if c = elt then some (numb - 1) else st.1 c),
       if 0 < numb then st.2 + 1 else st.2))
    ((fun _ => none), 0)).2

/-- `SequenceMatcher.quick_ratio`. -/
def quickRatio (a b : List Char) : ℚ := calcRatio (quickMatches a b) (a.length + b.length)

/-- The `for j in b2j.get(a[i], nothing)` iteration of `find_longest_match`:
`if j < blo: continue`, `if j >= bhi: break`. -/
def selectJs (blo bhi : Nat) : List Nat → List Nat
  | [] => []
  | j :: js => if j < blo then selectJs blo bhi js
               else if bhi ≤ j then []
               else j :: selectJs blo bhi js

/-- The inner loop of `find_longest_match` at row `i`: for each selected `j`,
`k = newj2len[j] = j2len.get(j-1, 0) + 1` (reading the previous row `old`),
and the best triple becomes `(i-k+1, j-k+1, k)` whenever `k > bestsize`.
The rows are total functions defaulting to `0`, like `dict.get(_, 0)`. -/
def flmInner (i : Nat) (old : Nat → Nat) :
    List Nat → ((Nat → Nat) × (Nat × Nat × Nat)) → ((Nat → Nat) × (Nat × Nat × Nat))
  | [], st => st
  | j :: js, (new, (bi, bj, bs)) =>
    let k := (if j = 0 then 0 else old (j - 1)) + 1
    let new' : Nat → Nat := fun v => if v = j then k else new v
    let best' := if bs < k then (i + 1 - k, j + 1 - k, k) else (bi, bj, bs)
    flmInner i old js (new', best')

/-- The outer `for i in range(alo, ahi)` loop of `find_longest_match`,
threading the row `j2len` and the best triple. -/
def flmOuter (a : List Char) (b2jf : Char → List Nat) (blo bhi : Nat) :
    List Nat → (Nat → Nat) → (Nat × Nat × Nat) → (Nat × Nat × Nat)
  | [], _, best => best
  | i :: is, j2len, best =>
    let st := flmInner i j2len (selectJs blo bhi (b2jf (aget a i))) ((fun _ => 0), best)
    flmOuter a b2jf blo bhi is st.1 st.2

/-- First extension loop: grow the match downwards while both flanking
characters exist above `alo`/`blo` and are equal (`bjunk` is empty, so the
`not isbjunk` conjunct is true).  Structural on `besti`. -/
def extendLo (a b : List Char) (alo blo : Nat) : Nat → Nat → Nat → Nat × Nat × Nat
  | 0, bj, bs => (0, bj, bs)
  | bi + 1, bj, bs =>
    if alo < bi + 1 ∧ blo < bj ∧ aget a bi = aget b (bj - 1) then
      extendLo a b alo blo bi (bj - 1) (bs + 1)
    else (bi + 1, bj, bs)

/-- Second extension loop, counted down by `gas = ahi - (besti + bestsize)`;
`gas = 0` holds exactly when the loop guard `besti+bestsize < ahi` fails, so
the fuel mirrors the `while` guard and the semantics are exact. -/
def extendHiAux (a b : List Char) (ahi bhi : Nat) : Nat → Nat → Nat → Nat → Nat × Nat × Nat
  | 0, bi, bj, bs => (bi, bj, bs)
  | gas + 1, bi, bj, bs =>
    if bi + bs < ahi ∧ bj + bs < bhi ∧ aget a (bi + bs) = aget b (bj + bs) then
      extendHiAux a b ahi bhi gas bi bj (bs + 1)
    else (bi, bj, bs)

/-- Second extension loop of `find_longest_match`. -/
def extendHi (a b : List Char) (ahi bhi : Nat) (t : Nat × Nat × Nat) : Nat × Nat × Nat :=
  extendHiAux a b ahi bhi (ahi - (t.1 + t.2.2)) t.1 t.2.1 t.2.2

/-- `SequenceMatcher.find_longest_match(alo, ahi, blo, bhi)` with
`a = seq1`, `b = seq2` and the (possibly autojunk-purged) chains `b2jf`. -/
def findLongestMatch (a b : List Char) (b2jf : Char → List Nat)
    (alo ahi blo bhi : Nat) : Nat × Nat × Nat :=
  let best := flmOuter a b2jf blo bhi (List.range' alo (ahi - alo)) (fun _ => 0) (alo, blo, 0)
  extendHi a b ahi bhi (extendLo a b alo blo best.1 best.2.1 best.2.2)

/-- Total size of the matching blocks of `get_matching_blocks`, computed by
the same divide-and-conquer as CPython's stack: the longest match of a
range contributes `k` and the two flanking ranges are processed under the
same guards.  Each recursion strictly shrinks `ahi - alo`, so fuel
`a.length` (the initial span) suffices; `matchingSumAux_fuel` below proves
the computed value is fuel-independent from that point on.  The final
`sort` and merge of adjacent blocks in CPython do not change the total. -/
def matchingSumAux (a b : List Char) (b2jf : Char → List Nat) :
    Nat → Nat → Nat → Nat → Nat → Nat
  | 0, _, _, _, _ => 0
  | fuel + 1, alo, ahi, blo, bhi =>
    let m := findLongestMatch a b b2jf alo ahi blo bhi
    if m.2.2 = 0 then 0
    else
      m.2.2
      + (if alo < m.1 ∧ blo < m.2.1 then matchingSumAux a b b2jf fuel alo m.1 blo m.2.1 else 0)
      + (if m.1 + m.2.2 < ahi ∧ m.2.1 + m.2.2 < bhi then
           matchingSumAux a b b2jf fuel (m.1 + m.2.2) ahi (m.2.1 + m.2.2) bhi
         else 0)

/-- The number of matched characters `M` used by `SequenceMatcher.ratio`. -/
def matchingSum (a b : List Char) : Nat :=
  matchingSumAux a b (b2j b) a.length 0 a.length 0 b.length

/-- `SequenceMatcher.ratio` on character lists: `2*M / (len(a)+len(b))`. -/
def ratioL (a b : List Char) : ℚ := calcRatio (matchingSum a b) (a.length + b.length)

/-- `SequenceMatcher(None, a, b).ratio()`: the similarity score
`search_file_by_name` relies on, with `a = seq1` the candidate file name
and `b = seq2` the query. -/
def ratio (a b : String) : ℚ := ratioL a.data b.data

/-- Python string comparison: lexicographic on code points. -/
def strLtB : List Char → List Char → Bool
  | [], [] => false
  | [], _ :: _ => true
  | _ :: _, [] => false
  | c :: cs, d :: ds =>
    if c.toNat < d.toNat then true
    else if d.toNat < c.toNat then false
    else strLtB cs ds

/-- Strict descending comparison on `(score, name)` pairs, matching Python
tuple comparison: scores first, then names by code point (`y.1 < x.1` is
phrased with `≤` so that the kernel can evaluate it on concrete scores). -/
def pairGt (x y : ℚ × String) : Bool :=
  (decide (y.1 ≤ x.1) && !(decide (x.1 ≤ y.1))) ||
    (decide (x.1 = y.1) && strLtB y.2.data x.2.data)

/-- Stable descending insertion: a new element goes after every element
whose key is greater than or equal to its own. -/
def insertDesc (x : ℚ × String) : List (ℚ × String) → List (ℚ × String)
  | [] => [x]
  | y :: rest => if pairGt x y then x :: y :: rest else y :: insertDesc x rest

/-- Stable descending sort by repeated insertion (elements are inserted in
input order, so equal keys keep their input order). -/
def sortDesc (l : List (ℚ × String)) : List (ℚ × String) :=
  l.foldl (fun acc x => insertDesc x acc) []

/-- `heapq.nlargest(n, l)` for `(score, name)` pairs: per the CPython
documentation and implementation it is equivalent to
`sorted(l, reverse=True)[:n]`, a stable descending selection. -/
def nlargest (n : Nat) (l : List (ℚ × String)) : List (ℚ × String) :=
  (sortDesc l).take n

/-- The filter `get_close_matches` applies to each possibility `x`:
`real_quick_ratio() >= cutoff and quick_ratio() >= cutoff and
ratio() >= cutoff` (each ratio is an upper bound of the next, so the
first two are mere short-circuits). -/
def gatePass (word x : String) (cutoff : ℚ) : Prop :=
  realQuickRatio x.data word.data ≥ cutoff ∧ quickRatio x.data word.data ≥ cutoff ∧
    ratio x word ≥ cutoff

instance (word x : String) (cutoff : ℚ) : Decidable (gatePass word x cutoff) := by
  unfold gatePass; infer_instance

/-- The `result` list `get_close_matches` accumulates before `_nlargest`:
every possibility passing the three ratio gates, paired with its score.
This intermediate list is as long as the number of passing candidates —
it is not truncated to `n`. -/
def gcm_scored (word : String) (possibilities : List String) (cutoff : ℚ) :
    List (ℚ × String) :=
  possibilities.filterMap (fun x =>
    if gatePass word x cutoff then some (ratio x word, x) else none)

/-- `difflib.get_close_matches(word, possibilities, n, cutoff)`. -/
def get_close_matches (word : String) (possibilities : List String)
    (n : Nat) (cutoff : ℚ) : List String :=
  (nlargest n (gcm_scored word possibilities cutoff)).map Prod.snd

/-! ## `search_file_by_name` (lines 254–295 of `server.py`) -/

/-- The inner loop of lines 286–290: for one matched name `m`, the full path
of every collected candidate whose file name equals `m`, in walk order. -/
def matchedPathsFor (candidates : List (String × String)) (m : String) : List String :=
  candidates.filterMap (fun c => if c.1 = m then some c.2 else none)

/-- Lines 269–290: the value the local variable `matched_files` holds after
the matching loop — all candidates collected from the walk, the file names
matched by `get_close_matches(filename, file_names, n=10, cutoff=0.6)`,
and, for each match in order, the full path of every candidate whose name
equals that match.  (The function body then fails to return it; see
`search_file_by_name` and `search_file_by_name_fixedImport`.) -/
def searchPipeline (filename : String) (rootPath : String) (root : Option Entry) :
    List String :=
  let candidates := collectCandidates rootPath root
  let file_names := candidates.map Prod.fst
  let close_matches := get_close_matches filename file_names 10 (mkRat 3 5)
  close_matches.flatMap (matchedPathsFor candidates)

/-- The tool call as written: lines 269–275 walk the tree and collect the
candidates, then line 281 evaluates the global name `get_close_matches`,
which `server.py` never imports (its imports, lines 1–15, contain no
`difflib`), so Python raises `NameError` on every call. -/
def search_file_by_name (_filename : String) (rootPath : String) (root : Option Entry) :
    Except PyErr (List String) :=
  let _candidates := collectCandidates rootPath root
  Except.error (PyErr.nameError "get_close_matches")

/-- The tool call under the intended `difflib` import: the matching pipeline
runs, but line 295 is `return matched_file` — a name never bound (the list
is called `matched_files`) — so the call still raises `NameError` instead
of returning the computed list. -/
def search_file_by_name_fixedImport (filename : String) (rootPath : String)
    (root : Option Entry) : Except PyErr (List String) :=
  let _matched_files := searchPipeline filename rootPath root
  Except.error (PyErr.nameError "matched_file")

/-! ## CSV record sinks (`add_log_to_journal`, `add_log_to_file`, `add_reminder`)

Each sink is modelled as a pure function from the previous contents of its
CSV file (`Option String`, `none` meaning the file does not exist yet — the
code checks `log_file.exists()` before opening in append mode) to the new
contents.  The ambient `datetime.datetime.now().strftime(...)` timestamp is
an explicit `timestamp` parameter. -/

/-- Python `text.replace('"', '""')`: double every quote character. -/
def escapeQuotes : List Char → List Char
  | [] => []
  | c :: rest => if c = '"' then '"' :: '"' :: escapeQuotes rest else c :: escapeQuotes rest

/-- The `escape_log_field` / `escape_csv` helper used by all three sinks:
double internal quotes, then wrap the whole field in quotes. -/
def escape_log_field (text : String) : String :=
  ⟨'"' :: (escapeQuotes text.data ++ ['"'])⟩

/-- The journal data row without its trailing newline:
`",".join([date, mood, escape_log_field(log)])`. -/
def journalRowBody (date mood log : String) : String :=
  date ++ "," ++ mood ++ "," ++ escape_log_field log

/-- `add_log_to_journal`'s file mutation: header `Date,Mood,Log` exactly when
the file did not exist, then the single data row, appended to the end. -/
def add_log_to_journal (date mood log : String) (file : Option String) : String :=
  match file with
  | none => "Date,Mood,Log\n" ++ (journalRowBody date mood log ++ "\n")
  | some contents => contents ++ (journalRowBody date mood log ++ "\n")

/-- The generic log row without its trailing newline:
`",".join([timestamp, escape_log_field(log)])`. -/
def fileRowBody (timestamp log : String) : String :=
  timestamp ++ "," ++ escape_log_field log

/-- `add_log_to_file`'s file mutation (header `Timestamp,Log` on first write). -/
def add_log_to_file (timestamp log : String) (file : Option String) : String :=
  match file with
  | none => "Timestamp,Log\n" ++ (fileRowBody timestamp log ++ "\n")
  | some contents => contents ++ (fileRowBody timestamp log ++ "\n")

/-- The reminder row without its trailing newline:
`",".join([timestamp, escape_csv(title), escape_csv(message)])`. -/
def reminderRowBody (timestamp title message : String) : String :=
  timestamp ++ "," ++ escape_log_field title ++ "," ++ escape_log_field message

/-- `add_reminder`'s file mutation (header `Timestamp,Title,Message` on first
write); the toast notification is outside the file model. -/
def add_reminder (timestamp title message : String) (file : Option String) : String :=
  match file with
  | none => "Timestamp,Title,Message\n" ++ (reminderRowBody timestamp title message ++ "\n")
  | some contents => contents ++ (reminderRowBody timestamp title message ++ "\n")

/-- Parser state for one CSV record (RFC-4180 style, quote doubling). -/
inductive CsvSt where
  | fieldStart
  | unquoted
  | quoted
  | quoteSeen
  deriving Repr, DecidableEq

/-- Parse one CSV record into its fields: `cur` is the field accumulated so
far.  Inside quotes a doubled `""` yields a literal quote; a single closing
quote ends the quoted part.  Used to state that a written row really
encodes its fields. -/
def parseCSV : CsvSt → List Char → List Char → List (List Char)
  | _, cur, [] => [cur]
  | .fieldStart, cur, c :: rest =>
    if c = '"' then parseCSV .quoted cur rest
    else if c = ',' then cur :: parseCSV .fieldStart [] rest
    else parseCSV .unquoted (cur ++ [c]) rest
  | .unquoted, cur, c :: rest =>
    if c = ',' then cur :: parseCSV .fieldStart [] rest
    else parseCSV .unquoted (cur ++ [c]) rest
  | .quoted, cur, c :: rest =>
    if c = '"' then parseCSV .quoteSeen cur rest
    else parseCSV .quoted (cur ++ [c]) rest
  | .quoteSeen, cur, c :: rest =>
    if c = '"' then parseCSV .quoted (cur ++ [c]) rest
    else if c = ',' then cur :: parseCSV .fieldStart [] rest
    else parseCSV .unquoted (cur ++ [c]) rest

/-- Parse one CSV record given as a string. -/
def parseRecord (s : String) : List String :=
  (parseCSV .fieldStart [] s.data).map (fun f => (⟨f⟩ : String))

/-- A string usable as a raw (unescaped) CSV field: no delimiter, no quote,
no record separator. -/
def CsvClean (s : String) : Prop :=
  ∀ c ∈ s.data, c ≠ ',' ∧ c ≠ '"' ∧ c ≠ '\n'

instance (s : String) : Decidable (CsvClean s) := by
  unfold CsvClean; infer_instance

/-! ## `analyze_mood_trend` and the shadowed `datetime` name

`server.py` line 4 runs `from datetime import datetime` (binding the
module-level name `datetime` to the class) and line 13 runs
`import datetime` (rebinding the same name to the module).  Imports execute
top to bottom, so at call time `datetime` is the module, and
`datetime.strptime` raises `AttributeError` — the module has no `strptime`
attribute (only the class inside it does). -/

/-- What the module-level name `datetime` can be bound to. -/
inductive DtBinding where
  | dtClass
  | dtModule
  deriving Repr, DecidableEq

/-- The two bindings of the name `datetime`, in execution order
(line 4, then line 13). -/
def importsInOrder : List DtBinding := [.dtClass, .dtModule]

/-- The binding in effect at call time: the last assignment wins. -/
def datetimeBinding : DtBinding := importsInOrder.getLastD .dtClass

/-- Model of `strptime(s, "%Y-%m-%d")` on the class binding (simplified to
dash-splitting with numeric components; unreachable under the module
binding).  On the module binding, attribute lookup fails. -/
def strptime (b : DtBinding) (s : String) : Except PyErr (Nat × Nat × Nat) :=
  match b with
  | .dtModule => .error (.attributeError "module datetime has no attribute strptime")
  | .dtClass =>
    match s.splitOn "-" with
    | [y, m, d] =>
      match y.toNat?, m.toNat?, d.toNat? with
      | some yn, some mn, some dn => .ok (yn, mn, dn)
      | _, _, _ => .error (.valueError "time data does not match format")
    | _ => .error (.valueError "time data does not match format")

/-- Lexicographic date comparison used for the range filter. -/
def dateLe : Nat × Nat × Nat → Nat × Nat × Nat → Bool
  | (y1, m1, d1), (y2, m2, d2) =>
    decide (y1 < y2) || (decide (y1 = y2) &&
      (decide (m1 < m2) || (decide (m1 = m2) && decide (d1 ≤ d2))))

/-- Python `str.isdigit` (nonempty, all digits). -/
def isDigits (s : String) : Bool := decide (0 < s.length) && s.data.all Char.isDigit

/-- A month directory of the journal tree: its name, whether it is a
directory, and the contents of `{name}_journal_log.csv` when that file
exists. -/
structure JMonth where
  name : String
  isDir : Bool
  csv : Option String

/-- A year directory of the journal tree. -/
structure JYear where
  name : String
  isDir : Bool
  months : List JMonth

/-- The `data/journal` tree `analyze_mood_trend` reads. -/
abbrev JournalFS := List JYear

/-- Insertion-ordered counter increment (`collections.Counter` preserves
first-insertion order when iterated). -/
def bumpCounter (k : String) : List (String × Nat) → List (String × Nat)
  | [] => [(k, 1)]
  | (k', n) :: rest => if k' = k then (k', n + 1) :: rest else (k', n) :: bumpCounter k rest

/-- `csv.DictReader` over the split lines of a month file: header row first,
then one dict per non-blank data row (blank rows are skipped). -/
def dictRows (contents : String) : List (List String) :=
  ((contents.splitOn "\n").filter (fun ln => ln ≠ "")).map
    (fun ln => parseCSV .fieldStart [] ln.data |>.map (fun f => (⟨f⟩ : String)))

/-- Process one month file: for each data row, parse `row["Date"]` with the
ambient `datetime` binding and count `row["Mood"]` when in range. -/
def processCsv (from_dt to_dt : Nat × Nat × Nat) (contents : String)
    (counter : List (String × Nat)) : Except PyErr (List (String × Nat)) :=
  match dictRows contents with
  | [] => .ok counter
  | header :: rows =>
    rows.foldlM
      (fun acc row =>
        match List.lookup "Date" (header.zip row) with
        | none => .error (.keyError "Date")
        | some ds =>
          match strptime datetimeBinding ds with
          | .error e => .error e
          | .ok entry_date =>
            if dateLe from_dt entry_date && dateLe entry_date to_dt then
              match List.lookup "Mood" (header.zip row) with
              | none => .error (.keyError "Mood")
              | some mood => .ok (bumpCounter mood acc)
            else .ok acc)
      counter

/-- The nested year/month traversal: skips non-directories, year names that
are not all digits, and months whose CSV is absent; threads the counter,
stops at the first raised error (as a Python exception would), and records
which CSV files were opened. -/
def journalLoop (from_dt to_dt : Nat × Nat × Nat) (fs : JournalFS) :
    Except PyErr (List (String × Nat)) × List String :=
  fs.foldl
    (fun st y =>
      if !y.isDir || !isDigits y.name then st
      else
        y.months.foldl
          (fun st m =>
            if !m.isDir then st
            else
              match m.csv with
              | none => st
              | some contents =>
                match st.1 with
                | .error _ => st
                | .ok counter =>
                  ((processCsv from_dt to_dt contents counter),
                   st.2 ++ [y.name ++ "/" ++ m.name ++ "/" ++ m.name ++ "_journal_log.csv"]))
          st)
    (.ok [], [])

/-- `analyze_mood_trend(from_date, to_date)` over a journal tree: the result
of the call (summary string or raised error) together with the list of
journal files it read.  Lines 113–114 parse the two bounds with the
module-level `datetime` binding before any directory traversal. -/
def analyze_mood_trend (from_date to_date : String) (fs : JournalFS) :
    Except PyErr String × List String :=
  match strptime datetimeBinding from_date with
  | .error e => (.error e, [])
  | .ok from_dt =>
    match strptime datetimeBinding to_date with
    | .error e => (.error e, [])
    | .ok to_dt =>
      match journalLoop from_dt to_dt fs with
      | (.error e, reads) => (.error e, reads)
      | (.ok counter, reads) =>
        if counter.isEmpty then
          (.ok ("No journal entries found between " ++ from_date ++ " and " ++ to_date ++ "."),
           reads)
        else
          (.ok ("Mood trend from " ++ from_date ++ " to " ++ to_date ++ ": " ++
            String.intercalate ", "
              (counter.map (fun p => p.1 ++ " (" ++ toString p.2 ++ ")"))),
           reads)

/-! ## Facts about the stable selection and the score gates -/

theorem insertDesc_perm (x : ℚ × String) (l : List (ℚ × String)) :
    (insertDesc x l).Perm (x :: l) := by
  induction l with
  | nil => simp [insertDesc]
  | cons y rest ih =>
    by_cases h : pairGt x y
    · simp [insertDesc, h]
    · simp only [insertDesc, h, Bool.false_eq_true, if_false]
      exact (List.Perm.cons y ih).trans (List.Perm.swap x y rest)

theorem foldl_insertDesc_perm (l acc : List (ℚ × String)) :
    (l.foldl (fun acc x => insertDesc x acc) acc).Perm (acc ++ l) := by
  induction l generalizing acc with
  | nil => simp
  | cons x rest ih =>
    refine (ih (insertDesc x acc)).trans ?_
    refine (List.Perm.append_right rest (insertDesc_perm x acc)).trans ?_
    exact List.perm_middle.symm

theorem sortDesc_perm (l : List (ℚ × String)) : (sortDesc l).Perm l :=
  foldl_insertDesc_perm l []

theorem mem_of_mem_nlargest {n : Nat} {l : List (ℚ × String)} {p : ℚ × String}
    (h : p ∈ nlargest n l) : p ∈ l :=
  (sortDesc_perm l).mem_iff.mp ((List.take_sublist n (sortDesc l)).mem h)

theorem length_nlargest_le (n : Nat) (l : List (ℚ × String)) :
    (nlargest n l).length ≤ n :=
  List.length_take_le n (sortDesc l)

theorem gcm_scored_map_snd (w : String) (ps : List String) (c : ℚ) :
    (gcm_scored w ps c).map Prod.snd = ps.filter (fun x => decide (gatePass w x c)) := by
  induction ps with
  | nil => rfl
  | cons x rest ih =>
    by_cases h : gatePass w x c <;>
      simp [gcm_scored, List.filterMap_cons, h, List.filter_cons] <;>
      simpa [gcm_scored] using ih

theorem mem_gcm_scored {w : String} {ps : List String} {c : ℚ} {p : ℚ × String}
    (h : p ∈ gcm_scored w ps c) : p.2 ∈ ps ∧ p.1 = ratio p.2 w ∧ gatePass w p.2 c := by
  induction ps with
  | nil => simp [gcm_scored] at h
  | cons x rest ih =>
    by_cases hx : gatePass w x c
    · simp only [gcm_scored, List.filterMap_cons, if_pos hx, List.mem_cons] at h
      rcases h with h | h
      · subst h; exact ⟨List.mem_cons_self x rest, rfl, hx⟩
      · have := ih (by simpa [gcm_scored] using h)
        exact ⟨List.mem_cons_of_mem x this.1, this.2⟩
    · simp only [gcm_scored, List.filterMap_cons, if_neg hx] at h
      have := ih (by simpa [gcm_scored] using h)
      exact ⟨List.mem_cons_of_mem x this.1, this.2⟩

theorem mem_close_matches {w : String} {ps : List String} {n : Nat} {c : ℚ} {m : String}
    (h : m ∈ get_close_matches w ps n c) : m ∈ ps ∧ c ≤ ratio m w := by
  unfold get_close_matches at h
  obtain ⟨p, hp, hm⟩ := List.mem_map.1 h
  have hmem := mem_gcm_scored (mem_of_mem_nlargest hp)
  subst hm
  exact ⟨hmem.1, hmem.2.2.2.2⟩

theorem length_close_matches_le (w : String) (ps : List String) (n : Nat) (c : ℚ) :
    (get_close_matches w ps n c).length ≤ n := by
  simpa [get_close_matches] using length_nlargest_le n (gcm_scored w ps c)

theorem close_matches_nodup {w : String} {ps : List String} {n : Nat} {c : ℚ}
    (h : ps.Nodup) : (get_close_matches w ps n c).Nodup := by
  have hperm : ((sortDesc (gcm_scored w ps c)).map Prod.snd).Perm
      ((gcm_scored w ps c).map Prod.snd) := (sortDesc_perm _).map Prod.snd
  have hnd : ((sortDesc (gcm_scored w ps c)).map Prod.snd).Nodup := by
    rw [hperm.nodup_iff, gcm_scored_map_snd]
    exact h.filter _
  have : get_close_matches w ps n c =
      ((sortDesc (gcm_scored w ps c)).map Prod.snd).take n := by
    simp [get_close_matches, nlargest, List.map_take]
  rw [this]
  exact hnd.sublist (List.take_sublist _ _)

theorem mem_matchedPathsFor {cs : List (String × String)} {m p : String} :
    p ∈ matchedPathsFor cs m ↔ (m, p) ∈ cs := by
  simp only [matchedPathsFor, List.mem_filterMap]
  constructor
  · rintro ⟨⟨n, q⟩, hmem, hf⟩
    by_cases h : n = m
    · subst h
      rw [if_pos rfl] at hf
      have hq : q = p := Option.some.inj hf
      subst hq
      exact hmem
    · simp [h] at hf
  · intro h
    exact ⟨(m, p), h, by simp⟩

theorem matchedPathsFor_eq_nil {cs : List (String × String)} {m : String}
    (h : m ∉ cs.map Prod.fst) : matchedPathsFor cs m = [] := by
  induction cs with
  | nil => rfl
  | cons c rest ih =>
    simp only [List.map_cons, List.mem_cons, not_or] at h
    have hne : ¬ c.1 = m := fun hc => h.1 hc.symm
    have hrest := ih h.2
    simp only [matchedPathsFor, List.filterMap_cons, if_neg hne] at hrest ⊢
    exact hrest

theorem length_matchedPathsFor_le_one {cs : List (String × String)} {m : String}
    (h : (cs.map Prod.fst).Nodup) : (matchedPathsFor cs m).length ≤ 1 := by
  induction cs with
  | nil => simp [matchedPathsFor]
  | cons c rest ih =>
    simp only [List.map_cons, List.nodup_cons] at h
    by_cases hc : c.1 = m
    · have hnil : matchedPathsFor rest m = [] :=
        matchedPathsFor_eq_nil (by rw [← hc]; simpa using h.1)
      simp only [matchedPathsFor, List.filterMap_cons, if_pos hc]
      simp only [matchedPathsFor] at hnil
      simp [hnil]
    · simp only [matchedPathsFor, List.filterMap_cons, if_neg hc]
      exact ih h.2

theorem length_flatMap_le {α β : Type} (l : List α) (f : α → List β)
    (h : ∀ x ∈ l, (f x).length ≤ 1) : (l.flatMap f).length ≤ l.length := by
  induction l with
  | nil => simp
  | cons x rest ih =>
    simp only [List.flatMap_cons, List.length_append, List.length_cons]
    have h1 := h x (List.mem_cons_self x rest)
    have h2 := ih (fun y hy => h y (List.mem_cons_of_mem x hy))
    omega

theorem nodup_flatMap {α β : Type} (l : List α) (f : α → List β)
    (hl : l.Nodup) (hf : ∀ x ∈ l, (f x).Nodup)
    (hdisj : ∀ x ∈ l, ∀ y ∈ l, x ≠ y → ∀ b ∈ f x, b ∉ f y) :
    (l.flatMap f).Nodup := by
  induction l with
  | nil => simp
  | cons x rest ih =>
    simp only [List.flatMap_cons]
    rw [List.nodup_append]
    refine ⟨hf x (List.mem_cons_self x rest), ?_, ?_⟩
    · exact ih (List.Nodup.of_cons hl)
        (fun y hy => hf y (List.mem_cons_of_mem x hy))
        (fun y hy z hz => hdisj y (List.mem_cons_of_mem x hy) z (List.mem_cons_of_mem x hz))
    · intro b hb hb'
      obtain ⟨y, hy, hby⟩ := List.mem_flatMap.1 hb'
      have hxy : x ≠ y := by
        rintro rfl
        exact (List.nodup_cons.1 hl).1 hy
      exact hdisj x (List.mem_cons_self x rest) y (List.mem_cons_of_mem x hy) hxy b hb hby

/-! ## Fault isolation of the walk: unreadable subtrees are invisible -/

theorem filesOf_prune : (cs : EntryList) →
    filesOf (pruneUnreadableList cs) = filesOf cs
  | .nil => rfl
  | .cons (.file n) rest => by
    simp only [pruneUnreadableList, filesOf, filesOf_prune rest]
  | .cons (.dir n false cs') rest => by
    simp only [pruneUnreadableList, filesOf, filesOf_prune rest]
  | .cons (.dir n true cs') rest => by
    simp only [pruneUnreadableList, filesOf, filesOf_prune rest]

mutual
theorem osWalk_prune : (p : String) → (e : Entry) →
    osWalk p (pruneUnreadable e) = osWalk p e
  | _, .file _ => rfl
  | _, .dir _ false _ => rfl
  | p, .dir n true cs => by
    simp only [pruneUnreadable, osWalk, filesOf_prune cs, osWalkList_prune p cs]

theorem osWalkList_prune : (p : String) → (cs : EntryList) →
    osWalkList p (pruneUnreadableList cs) = osWalkList p cs
  | _, .nil => rfl
  | p, .cons (.file n) rest => by
    simp only [pruneUnreadableList, osWalkList, osWalkList_prune p rest]
  | p, .cons (.dir n false cs') rest => by
    simp only [pruneUnreadableList, osWalkList, osWalkList_prune p rest, osWalk,
      List.nil_append]
  | p, .cons (.dir n true cs') rest => by
    have h1 := osWalk_prune (joinPath p n) (.dir n true cs')
    simp only [pruneUnreadable] at h1
    simp only [pruneUnreadableList, osWalkList, h1, osWalkList_prune p rest]
end

theorem collectCandidates_prune (rp : String) (e : Entry) :
    collectCandidates rp (some (pruneUnreadable e)) = collectCandidates rp (some e) := by
  simp only [collectCandidates, osWalk_prune]

theorem searchPipeline_prune (q rp : String) (e : Entry) :
    searchPipeline q rp (some (pruneUnreadable e)) = searchPipeline q rp (some e) := by
  simp only [searchPipeline, collectCandidates_prune]

/-! ## The walk reports every reachable file exactly once -/

mutual
theorem walk_count : (p : String) → (e : Entry) →
    ((osWalk p e).map (fun pr => pr.2.length)).sum = reachableFiles e
  | _, .file _ => rfl
  | _, .dir _ false _ => rfl
  | p, .dir n true cs => by
    simp only [osWalk, List.map_cons, List.sum_cons, reachableFiles]
    exact walkList_count p cs

theorem walkList_count : (p : String) → (cs : EntryList) →
    (filesOf cs).length + ((osWalkList p cs).map (fun pr => pr.2.length)).sum =
      reachableFilesList cs
  | _, .nil => rfl
  | p, .cons (.file n) rest => by
    have ih := walkList_count p rest
    simp only [filesOf, osWalkList, List.length_cons, reachableFilesList]
    omega
  | p, .cons (.dir n r cs') rest => by
    have ih := walkList_count p rest
    have ihe := walk_count (joinPath p n) (.dir n r cs')
    simp only [filesOf, osWalkList, reachableFilesList, List.map_append, List.sum_append]
    omega
end

theorem collect_length (rp : String) (root : Option Entry) :
    (collectCandidates rp root).length = reachableFilesRoot root := by
  cases root with
  | none => rfl
  | some e =>
    simp only [collectCandidates, reachableFilesRoot, List.length_flatMap]
    rw [← walk_count rp e]
    exact congrArg List.sum (List.map_congr_left (fun a _ => by simp))

/-! ## The written CSV rows encode their fields -/

theorem parseCSV_nil (st : CsvSt) (cur : List Char) : parseCSV st cur [] = [cur] := by
  cases st <;> rfl

theorem parseCSV_fieldStart_cons (cur : List Char) (c : Char) (rest : List Char) :
    parseCSV .fieldStart cur (c :: rest) =
      if c = '"' then parseCSV .quoted cur rest
      else if c = ',' then cur :: parseCSV .fieldStart [] rest
      else parseCSV .unquoted (cur ++ [c]) rest := rfl

theorem parseCSV_unquoted_cons (cur : List Char) (c : Char) (rest : List Char) :
    parseCSV .unquoted cur (c :: rest) =
      if c = ',' then cur :: parseCSV .fieldStart [] rest
      else parseCSV .unquoted (cur ++ [c]) rest := rfl

theorem parseCSV_quoted_cons (cur : List Char) (c : Char) (rest : List Char) :
    parseCSV .quoted cur (c :: rest) =
      if c = '"' then parseCSV .quoteSeen cur rest
      else parseCSV .quoted (cur ++ [c]) rest := rfl

theorem parseCSV_quoteSeen_cons (cur : List Char) (c : Char) (rest : List Char) :
    parseCSV .quoteSeen cur (c :: rest) =
      if c = '"' then parseCSV .quoted (cur ++ [c]) rest
      else if c = ',' then cur :: parseCSV .fieldStart [] rest
      else parseCSV .unquoted (cur ++ [c]) rest := rfl

theorem escapeQuotes_quote (l : List Char) :
    escapeQuotes ('"' :: l) = '"' :: '"' :: escapeQuotes l := by
  simp [escapeQuotes]

theorem escapeQuotes_other {c : Char} (hc : ¬ c = '"') (l : List Char) :
    escapeQuotes (c :: l) = c :: escapeQuotes l := by
  simp [escapeQuotes, hc]

theorem parseCSV_unquoted_run (s : List Char) :
    ∀ (cur rest : List Char), (∀ c ∈ s, c ≠ ',') →
      parseCSV .unquoted cur (s ++ rest) = parseCSV .unquoted (cur ++ s) rest := by
  induction s with
  | nil => intro cur rest _; simp
  | cons c s' ih =>
    intro cur rest h
    have hc : ¬ c = ',' := h c (List.mem_cons_self c s')
    rw [List.cons_append, parseCSV_unquoted_cons, if_neg hc,
      ih (cur ++ [c]) rest (fun d hd => h d (List.mem_cons_of_mem c hd))]
    simp

theorem parseCSV_fieldStart_run (s : List Char) (rest : List Char)
    (h : ∀ c ∈ s, c ≠ ',' ∧ c ≠ '"') :
    parseCSV .fieldStart [] (s ++ ',' :: rest) = s :: parseCSV .fieldStart [] rest := by
  cases s with
  | nil =>
    rw [List.nil_append, parseCSV_fieldStart_cons, if_neg (by decide), if_pos rfl]
  | cons c s' =>
    have hc := h c (List.mem_cons_self c s')
    rw [List.cons_append, parseCSV_fieldStart_cons, if_neg hc.2, if_neg hc.1,
      List.nil_append,
      parseCSV_unquoted_run s' [c] (',' :: rest)
        (fun d hd => (h d (List.mem_cons_of_mem c hd)).1),
      parseCSV_unquoted_cons, if_pos rfl, List.singleton_append]

theorem parseCSV_quoted_escape (log : List Char) :
    ∀ (cur rest : List Char),
      parseCSV .quoted cur (escapeQuotes log ++ '"' :: rest) =
        parseCSV .quoteSeen (cur ++ log) rest := by
  induction log with
  | nil =>
    intro cur rest
    show parseCSV .quoted cur ([] ++ '"' :: rest) = _
    rw [List.nil_append, parseCSV_quoted_cons, if_pos rfl, List.append_nil]
  | cons c l ih =>
    intro cur rest
    by_cases hc : c = '"'
    · subst hc
      rw [escapeQuotes_quote, List.cons_append, List.cons_append,
        parseCSV_quoted_cons, if_pos rfl, parseCSV_quoteSeen_cons, if_pos rfl,
        ih (cur ++ ['"']) rest]
      simp
    · rw [escapeQuotes_other hc, List.cons_append, parseCSV_quoted_cons, if_neg hc,
        ih (cur ++ [c]) rest]
      simp

theorem parseRecord_journalRow (date mood log : String)
    (hd : CsvClean date) (hm : CsvClean mood) :
    parseRecord (journalRowBody date mood log) = [date, mood, log] := by
  unfold parseRecord journalRowBody escape_log_field
  have hdata : (date ++ "," ++ mood ++ "," ++
      (⟨'"' :: (escapeQuotes log.data ++ ['"'])⟩ : String)).data =
      date.data ++ ',' :: (mood.data ++ ',' ::
        ('"' :: (escapeQuotes log.data ++ ['"']))) := by
    simp [String.data_append]
  rw [hdata,
    parseCSV_fieldStart_run date.data _ (fun c hc => ⟨(hd c hc).1, (hd c hc).2.1⟩),
    parseCSV_fieldStart_run mood.data _ (fun c hc => ⟨(hm c hc).1, (hm c hc).2.1⟩)]
  have hq : parseCSV CsvSt.fieldStart [] ('"' :: (escapeQuotes log.data ++ ['"'])) =
      [log.data] := by
    rw [parseCSV_fieldStart_cons, if_pos rfl, parseCSV_quoted_escape log.data [] [],
      parseCSV_nil, List.nil_append]
  rw [hq]
  simp

theorem parseRecord_fileRow (timestamp log : String) (ht : CsvClean timestamp) :
    parseRecord (fileRowBody timestamp log) = [timestamp, log] := by
  unfold parseRecord fileRowBody escape_log_field
  have hdata : (timestamp ++ "," ++
      (⟨'"' :: (escapeQuotes log.data ++ ['"'])⟩ : String)).data =
      timestamp.data ++ ',' :: ('"' :: (escapeQuotes log.data ++ ['"'])) := by
    simp [String.data_append]
  rw [hdata,
    parseCSV_fieldStart_run timestamp.data _ (fun c hc => ⟨(ht c hc).1, (ht c hc).2.1⟩)]
  have hq : parseCSV CsvSt.fieldStart [] ('"' :: (escapeQuotes log.data ++ ['"'])) =
      [log.data] := by
    rw [parseCSV_fieldStart_cons, if_pos rfl, parseCSV_quoted_escape log.data [] [],
      parseCSV_nil, List.nil_append]
  rw [hq]
  simp

theorem parseRecord_reminderRow (timestamp title message : String)
    (ht : CsvClean timestamp) :
    parseRecord (reminderRowBody timestamp title message) = [timestamp, title, message] := by
  unfold parseRecord reminderRowBody escape_log_field
  have hdata : (timestamp ++ "," ++ (⟨'"' :: (escapeQuotes title.data ++ ['"'])⟩ : String)
        ++ "," ++ (⟨'"' :: (escapeQuotes message.data ++ ['"'])⟩ : String)).data =
      timestamp.data ++ ',' :: ('"' :: (escapeQuotes title.data ++ '"' ::
        (',' :: ('"' :: (escapeQuotes message.data ++ ['"']))))) := by
    simp [String.data_append]
  rw [hdata,
    parseCSV_fieldStart_run timestamp.data _ (fun c hc => ⟨(ht c hc).1, (ht c hc).2.1⟩)]
  have hq : parseCSV CsvSt.fieldStart [] ('"' :: (escapeQuotes title.data ++ '"' ::
      (',' :: ('"' :: (escapeQuotes message.data ++ ['"']))))) =
      [title.data, message.data] := by
    rw [parseCSV_fieldStart_cons, if_pos rfl,
      parseCSV_quoted_escape title.data []
        (',' :: ('"' :: (escapeQuotes message.data ++ ['"']))),
      parseCSV_quoteSeen_cons, if_neg (by decide), if_pos rfl,
      parseCSV_fieldStart_cons, if_pos rfl,
      parseCSV_quoted_escape message.data [] [],
      parseCSV_nil, List.nil_append, List.nil_append]
  rw [hq]
  simp

/-! ## Below the autojunk threshold the fold alone finds the full diagonal

With `seq2` shorter than 200 characters the autojunk purge is disabled and
`b2j` holds every position.  The `find_longest_match` fold then finds the
full diagonal on its own: after processing rows `0..t-1` the best triple is
`(0, 0, t)` and the previous row maps `t-1` to `t`, so row `t` extends the
diagonal run to `t+1`, and no off-diagonal chain can exceed it.  (The
unconditional identity `ratio x x = 1`, with no length bound, is proved
after the bounds section below, from the extension loops.) -/

/-- Invariant of the dynamic-programming row after `t` outer steps of
`find_longest_match` on `a` against itself. -/
def RowInv (t : Nat) (row : Nat → Nat) : Prop :=
  (∀ v, row v ≤ t) ∧ (∀ v, row v ≤ v + 1) ∧ (1 ≤ t → row (t - 1) = t)

theorem flmInner_cons (i : Nat) (old : Nat → Nat) (j : Nat) (js : List Nat)
    (new : Nat → Nat) (bi bj bs : Nat) :
    flmInner i old (j :: js) (new, (bi, bj, bs)) =
      flmInner i old js
        ((fun v => if v = j then (if j = 0 then 0 else old (j - 1)) + 1 else new v),
         (if bs < (if j = 0 then 0 else old (j - 1)) + 1 then
            (i + 1 - ((if j = 0 then 0 else old (j - 1)) + 1),
             j + 1 - ((if j = 0 then 0 else old (j - 1)) + 1),
             (if j = 0 then 0 else old (j - 1)) + 1)
          else (bi, bj, bs))) := rfl

theorem flmOuter_cons (a : List Char) (b2jf : Char → List Nat) (blo bhi : Nat)
    (i : Nat) (is : List Nat) (j2len : Nat → Nat) (best : Nat × Nat × Nat) :
    flmOuter a b2jf blo bhi (i :: is) j2len best =
      flmOuter a b2jf blo bhi is
        (flmInner i j2len (selectJs blo bhi (b2jf (aget a i))) ((fun _ => 0), best)).1
        (flmInner i j2len (selectJs blo bhi (b2jf (aget a i))) ((fun _ => 0), best)).2 := rfl

theorem mem_positions {a : List Char} {c : Char} {j : Nat} :
    j ∈ positions a c ↔ j < a.length ∧ aget a j = c := by
  simp [positions, List.mem_filter, List.mem_range]

theorem pairwise_positions (a : List Char) (c : Char) :
    (positions a c).Pairwise (· < ·) :=
  (List.pairwise_lt_range a.length).filter _

theorem b2j_small {a : List Char} (h : a.length < 200) (c : Char) :
    b2j a c = positions a c := by
  unfold b2j
  rw [if_neg]
  rintro ⟨h1, _⟩
  omega

theorem selectJs_id {bhi : Nat} : ∀ {l : List Nat}, (∀ j ∈ l, j < bhi) →
    selectJs 0 bhi l = l := by
  intro l
  induction l with
  | nil => intro _; rfl
  | cons j rest ih =>
    intro h
    have hj : j < bhi := h j (List.mem_cons_self j rest)
    simp only [selectJs, Nat.not_lt_zero, if_false, if_neg (by omega : ¬ bhi ≤ j)]
    rw [ih (fun d hd => h d (List.mem_cons_of_mem j hd))]

theorem flmInner_diag (t : Nat) (row : Nat → Nat) (hrow : RowInv t row) :
    ∀ (js : List Nat) (new : Nat → Nat) (cur : Nat × Nat × Nat),
      js.Pairwise (· < ·) →
      (∀ v, new v ≤ t + 1) → (∀ v, new v ≤ v + 1) →
      ((t ∈ js ∧ cur = (0, 0, t)) ∨
        ((∀ j ∈ js, t < j) ∧ cur = (0, 0, t + 1) ∧ new t = t + 1)) →
      (flmInner t row js (new, cur)).2 = (0, 0, t + 1) ∧
      (∀ v, (flmInner t row js (new, cur)).1 v ≤ t + 1) ∧
      (∀ v, (flmInner t row js (new, cur)).1 v ≤ v + 1) ∧
      (flmInner t row js (new, cur)).1 t = t + 1 := by
  intro js
  induction js with
  | nil =>
    intro new cur _ hb1 hb2 hphase
    rcases hphase with ⟨habs, _⟩ | ⟨_, hcur, hnewt⟩
    · exact absurd habs (List.not_mem_nil t)
    · subst hcur
      exact ⟨rfl, hb1, hb2, hnewt⟩
  | cons j js' ih =>
    intro new cur hpair hb1 hb2 hphase
    have hpair' : js'.Pairwise (· < ·) := (List.pairwise_cons.1 hpair).2
    have hjlt : ∀ x ∈ js', j < x := (List.pairwise_cons.1 hpair).1
    have hk1 : (if j = 0 then 0 else row (j - 1)) + 1 ≤ t + 1 := by
      by_cases hj0 : j = 0
      · simp [hj0]
      · have := hrow.1 (j - 1); simp [hj0]; omega
    have hk2 : (if j = 0 then 0 else row (j - 1)) + 1 ≤ j + 1 := by
      by_cases hj0 : j = 0
      · simp [hj0]
      · have := hrow.2.1 (j - 1); simp [hj0]; omega
    rcases hphase with ⟨htin, hcur⟩ | ⟨hgt, hcur, hnewt⟩
    · subst hcur
      rcases Nat.lt_trichotomy j t with hjt | hjt | hjt
      · -- a chain ending strictly left of the diagonal is too short to win
        have htin' : t ∈ js' := by
          rcases List.mem_cons.1 htin with h | h
          · omega
          · exact h
        rw [flmInner_cons, if_neg (by omega : ¬ t < (if j = 0 then 0 else row (j - 1)) + 1)]
        refine ih _ _ hpair' ?_ ?_ (Or.inl ⟨htin', rfl⟩)
        · intro v; by_cases hv : v = j <;> simp [hv, hk1, hb1 v]
        · intro v
          by_cases hv : v = j
          · subst hv; rw [if_pos rfl]; exact hk2
          · rw [if_neg hv]; exact hb2 v
      · -- the diagonal entry always wins: the run grows to `t + 1`
        subst hjt
        have hkt : (if j = 0 then 0 else row (j - 1)) + 1 = j + 1 := by
          by_cases hj0 : j = 0
          · simp [hj0]
          · have := hrow.2.2 (by omega : 1 ≤ j); simp [hj0]; omega
        rw [flmInner_cons, if_pos (by omega : j < (if j = 0 then 0 else row (j - 1)) + 1)]
        have harg : (j + 1 - ((if j = 0 then 0 else row (j - 1)) + 1),
            j + 1 - ((if j = 0 then 0 else row (j - 1)) + 1),
            (if j = 0 then 0 else row (j - 1)) + 1) = ((0 : Nat), (0 : Nat), j + 1) := by
          rw [hkt]; simp
        rw [harg]
        refine ih _ _ hpair' ?_ ?_ (Or.inr ⟨hjlt, rfl, by simp [hkt]⟩)
        · intro v; by_cases hv : v = j <;> simp [hv, hk1, hb1 v]
        · intro v
          by_cases hv : v = j
          · subst hv; rw [if_pos rfl]; exact hk2
          · rw [if_neg hv]; exact hb2 v
      · -- `t < j` contradicts membership of `t` in a sorted tail
        exfalso
        rcases List.mem_cons.1 htin with h | h
        · omega
        · exact absurd (hjlt t h) (by omega)
    · -- past the diagonal no chain beats `t + 1`
      subst hcur
      have hjgt : t < j := hgt j (List.mem_cons_self j js')
      rw [flmInner_cons, if_neg (by omega : ¬ t + 1 < (if j = 0 then 0 else row (j - 1)) + 1)]
      refine ih _ _ hpair' ?_ ?_
        (Or.inr ⟨fun x hx => hgt x (List.mem_cons_of_mem j hx), rfl, ?_⟩)
      · intro v; by_cases hv : v = j <;> simp [hv, hk1, hb1 v]
      · intro v
        by_cases hv : v = j
        · subst hv; rw [if_pos rfl]; exact hk2
        · rw [if_neg hv]; exact hb2 v
      · rw [if_neg (by omega : ¬ t = j)]
        exact hnewt

theorem flmOuter_diag (a : List Char) (h200 : a.length < 200) :
    ∀ (m t : Nat) (row : Nat → Nat), t + m = a.length → RowInv t row →
      flmOuter a (b2j a) 0 a.length (List.range' t m) row (0, 0, t) =
        (0, 0, a.length) := by
  intro m
  induction m with
  | zero =>
    intro t row htm _
    rw [List.range'_zero]
    have ht : t = a.length := by omega
    subst ht
    rfl
  | succ m ih =>
    intro t row htm hrow
    rw [List.range'_succ, flmOuter_cons, b2j_small h200,
      selectJs_id (fun j hj => (mem_positions.1 hj).1)]
    have hmem_t : t ∈ positions a (aget a t) :=
      mem_positions.2 ⟨by omega, rfl⟩
    obtain ⟨hbest, hB1, hB2, hBt⟩ :=
      flmInner_diag t row hrow (positions a (aget a t)) (fun _ => 0) (0, 0, t)
        (pairwise_positions a (aget a t)) (fun _ => Nat.zero_le _) (fun _ => Nat.zero_le _)
        (Or.inl ⟨hmem_t, rfl⟩)
    rw [hbest]
    exact ih (t + 1) _ (by omega) ⟨hB1, hB2, fun _ => by simpa using hBt⟩

theorem matchingSumAux_succ (a b : List Char) (b2jf : Char → List Nat)
    (fuel alo ahi blo bhi : Nat) :
    matchingSumAux a b b2jf (fuel + 1) alo ahi blo bhi =
      if (findLongestMatch a b b2jf alo ahi blo bhi).2.2 = 0 then 0
      else (findLongestMatch a b b2jf alo ahi blo bhi).2.2
        + (if alo < (findLongestMatch a b b2jf alo ahi blo bhi).1 ∧
              blo < (findLongestMatch a b b2jf alo ahi blo bhi).2.1 then
             matchingSumAux a b b2jf fuel alo (findLongestMatch a b b2jf alo ahi blo bhi).1
               blo (findLongestMatch a b b2jf alo ahi blo bhi).2.1
           else 0)
        + (if (findLongestMatch a b b2jf alo ahi blo bhi).1 +
                (findLongestMatch a b b2jf alo ahi blo bhi).2.2 < ahi ∧
              (findLongestMatch a b b2jf alo ahi blo bhi).2.1 +
                (findLongestMatch a b b2jf alo ahi blo bhi).2.2 < bhi then
             matchingSumAux a b b2jf fuel
               ((findLongestMatch a b b2jf alo ahi blo bhi).1 +
                 (findLongestMatch a b b2jf alo ahi blo bhi).2.2) ahi
               ((findLongestMatch a b b2jf alo ahi blo bhi).2.1 +
                 (findLongestMatch a b b2jf alo ahi blo bhi).2.2) bhi
           else 0) := rfl

/-! ## The fuel of `matchingSumAux` is invisible

`find_longest_match` always returns a block inside its ranges, so each
recursive call of the divide-and-conquer strictly shrinks the `a`-range:
fuel `ahi - alo` (and a fortiori the `a.length` used by `matchingSum`)
never runs out, and any sufficient fuel computes the same value.  This
section proves the range bounds by the same invariant style as the
diagonal lemma, and derives fuel-independence. -/

theorem selectJs_mem {blo bhi : Nat} :
    ∀ {l : List Nat} {j : Nat}, j ∈ selectJs blo bhi l → blo ≤ j ∧ j < bhi := by
  intro l
  induction l with
  | nil => intro j h; simp [selectJs] at h
  | cons x rest ih =>
    intro j h
    simp only [selectJs] at h
    by_cases h1 : x < blo
    · rw [if_pos h1] at h
      exact ih h
    · rw [if_neg h1] at h
      by_cases h2 : bhi ≤ x
      · rw [if_pos h2] at h
        simp at h
      · rw [if_neg h2] at h
        rcases List.mem_cons.1 h with rfl | h
        · omega
        · exact ih h

theorem flmInner_bounds (alo blo bhi p : Nat) (row : Nat → Nat)
    (hrow1 : ∀ v, row v ≤ p) (hrow2 : ∀ v, blo ≤ v → row v + blo ≤ v + 1)
    (hrow3 : ∀ v, v < blo → row v = 0) :
    ∀ (js : List Nat) (new : Nat → Nat) (bi bj bs : Nat)
      (new' : Nat → Nat) (bi' bj' bs' : Nat),
      (∀ j ∈ js, blo ≤ j ∧ j < bhi) →
      (∀ v, new v ≤ p + 1) → (∀ v, blo ≤ v → new v + blo ≤ v + 1) →
      (∀ v, v < blo → new v = 0) →
      alo ≤ bi → blo ≤ bj →
      (bs ≠ 0 → bi + bs ≤ alo + p + 1 ∧ bj + bs ≤ bhi) →
      (bs = 0 → bi = alo ∧ bj = blo) →
      flmInner (alo + p) row js (new, (bi, bj, bs)) = (new', (bi', bj', bs')) →
      (∀ v, new' v ≤ p + 1) ∧ (∀ v, blo ≤ v → new' v + blo ≤ v + 1) ∧
      (∀ v, v < blo → new' v = 0) ∧
      alo ≤ bi' ∧ blo ≤ bj' ∧
      (bs' ≠ 0 → bi' + bs' ≤ alo + p + 1 ∧ bj' + bs' ≤ bhi) ∧
      (bs' = 0 → bi' = alo ∧ bj' = blo) := by
  intro js
  induction js with
  | nil =>
    intro new bi bj bs new' bi' bj' bs' _ hn1 hn2 hn3 hbi hbj hbs hbs0 heq
    injection heq with e1 e2
    injection e2 with e3 e4
    injection e4 with e5 e6
    subst e1; subst e3; subst e5; subst e6
    exact ⟨hn1, hn2, hn3, hbi, hbj, hbs, hbs0⟩
  | cons j js' ih =>
    intro new bi bj bs new' bi' bj' bs' hjs hn1 hn2 hn3 hbi hbj hbs hbs0 heq
    have hjm := hjs j (List.mem_cons_self j js')
    have hjs' : ∀ x ∈ js', blo ≤ x ∧ x < bhi :=
      fun x hx => hjs x (List.mem_cons_of_mem j hx)
    have hk1 : (if j = 0 then 0 else row (j - 1)) + 1 ≤ p + 1 := by
      by_cases hj0 : j = 0
      · simp [hj0]
      · have := hrow1 (j - 1)
        simp [hj0]
        omega
    have hk2 : (if j = 0 then 0 else row (j - 1)) + 1 + blo ≤ j + 1 := by
      by_cases hj0 : j = 0
      · have : blo = 0 := by omega
        simp [hj0, this]
      · by_cases hjb : blo ≤ j - 1
        · have := hrow2 (j - 1) hjb
          simp [hj0]
          omega
        · have : row (j - 1) = 0 := hrow3 (j - 1) (by omega)
          simp [hj0, this]
          omega
    rw [flmInner_cons] at heq
    set k := (if j = 0 then 0 else row (j - 1)) + 1 with hkdef
    have hnew1 : ∀ v, (fun v => if v = j then k else new v) v ≤ p + 1 := by
      intro v
      by_cases hv : v = j <;> simp [hv, hk1, hn1 v]
    have hnew2 : ∀ v, blo ≤ v →
        (fun v => if v = j then k else new v) v + blo ≤ v + 1 := by
      intro v hv
      by_cases hvj : v = j
      · subst hvj; simp [hk2]
      · simp only [if_neg hvj]
        exact hn2 v hv
    have hnew3 : ∀ v, v < blo → (fun v => if v = j then k else new v) v = 0 := by
      intro v hv
      have : ¬ v = j := by omega
      simp only [if_neg this]
      exact hn3 v hv
    by_cases hlt : bs < k
    · rw [if_pos hlt] at heq
      refine ih _ _ _ _ _ _ _ _ hjs' hnew1 hnew2 hnew3 (by omega) (by omega) ?_ ?_ heq
      · intro _
        constructor
        · have : k ≤ alo + p + 1 := by omega
          omega
        · omega
      · intro h0
        exact absurd h0 (by omega)
    · rw [if_neg hlt] at heq
      exact ih _ _ _ _ _ _ _ _ hjs' hnew1 hnew2 hnew3 hbi hbj hbs hbs0 heq

theorem flmOuter_bounds (a : List Char) (b2jf : Char → List Nat) (blo bhi alo : Nat) :
    ∀ (m p : Nat) (row : Nat → Nat) (bi bj bs bi' bj' bs' : Nat),
      (∀ v, row v ≤ p) → (∀ v, blo ≤ v → row v + blo ≤ v + 1) →
      (∀ v, v < blo → row v = 0) →
      alo ≤ bi → blo ≤ bj →
      (bs ≠ 0 → bi + bs ≤ alo + p ∧ bj + bs ≤ bhi) →
      (bs = 0 → bi = alo ∧ bj = blo) →
      flmOuter a b2jf blo bhi (List.range' (alo + p) m) row (bi, bj, bs) =
        (bi', bj', bs') →
      alo ≤ bi' ∧ blo ≤ bj' ∧
      (bs' ≠ 0 → bi' + bs' ≤ alo + p + m ∧ bj' + bs' ≤ bhi) ∧
      (bs' = 0 → bi' = alo ∧ bj' = blo) := by
  intro m
  induction m with
  | zero =>
    intro p row bi bj bs bi' bj' bs' _ _ _ hbi hbj hbs hbs0 heq
    rw [List.range'_zero] at heq
    injection heq with e1 e2
    injection e2 with e3 e4
    subst e1; subst e3; subst e4
    exact ⟨hbi, hbj, fun h => by have := hbs h; omega, hbs0⟩
  | succ m ihm =>
    intro p row bi bj bs bi' bj' bs' hr1 hr2 hr3 hbi hbj hbs hbs0 heq
    rw [List.range'_succ, flmOuter_cons] at heq
    obtain ⟨new1, sbi, sbj, sbs, hst⟩ :
        ∃ n x y z, flmInner (alo + p) row
          (selectJs blo bhi (b2jf (aget a (alo + p)))) ((fun _ => 0), (bi, bj, bs)) =
            (n, (x, y, z)) := ⟨_, _, _, _, rfl⟩
    rw [hst] at heq
    obtain ⟨hn1, hn2, hn3, hsbi, hsbj, hsbs, hsbs0⟩ :=
      flmInner_bounds alo blo bhi p row hr1 hr2 hr3
        (selectJs blo bhi (b2jf (aget a (alo + p)))) (fun _ => 0) bi bj bs
        new1 sbi sbj sbs
        (fun _ hx => selectJs_mem hx)
        (fun _ => Nat.zero_le _)
        (fun v _ => by change 0 + blo ≤ v + 1; omega)
        (fun _ _ => rfl)
        hbi hbj
        (fun h => by have := hbs h; omega)
        hbs0 hst
    obtain ⟨g1, g2, g3, g4⟩ :=
      ihm (p + 1) new1 sbi sbj sbs bi' bj' bs' hn1 hn2 hn3 hsbi hsbj
        (fun h => hsbs h) hsbs0 heq
    refine ⟨g1, g2, fun h => ?_, g4⟩
    obtain ⟨ga, gb⟩ := g3 h
    exact ⟨by omega, gb⟩

theorem extendLo_bounds (a b : List Char) (alo blo : Nat) :
    ∀ (bi bj bs : Nat), alo ≤ bi → blo ≤ bj →
      (extendLo a b alo blo bi bj bs).1 + (extendLo a b alo blo bi bj bs).2.2 = bi + bs ∧
      (extendLo a b alo blo bi bj bs).2.1 + (extendLo a b alo blo bi bj bs).2.2 = bj + bs ∧
      alo ≤ (extendLo a b alo blo bi bj bs).1 ∧
      blo ≤ (extendLo a b alo blo bi bj bs).2.1 ∧
      bs ≤ (extendLo a b alo blo bi bj bs).2.2 := by
  intro bi
  induction bi with
  | zero =>
    intro bj bs h1 h2
    exact ⟨rfl, rfl, h1, h2, Nat.le_refl bs⟩
  | succ n ih =>
    intro bj bs h1 h2
    by_cases hg : alo < n + 1 ∧ blo < bj ∧ aget a n = aget b (bj - 1)
    · rw [show extendLo a b alo blo (n + 1) bj bs =
          extendLo a b alo blo n (bj - 1) (bs + 1) from by simp [extendLo, hg]]
      obtain ⟨e1, e2, e3, e4, e5⟩ := ih (bj - 1) (bs + 1) (by omega) (by omega)
      exact ⟨by omega, by omega, e3, e4, by omega⟩
    · rw [show extendLo a b alo blo (n + 1) bj bs = (n + 1, bj, bs) from by
        simp [extendLo, hg]]
      exact ⟨rfl, rfl, h1, h2, Nat.le_refl bs⟩

theorem extendHiAux_bounds (a b : List Char) (ahi bhi : Nat) :
    ∀ (gas bi bj bs : Nat),
      (extendHiAux a b ahi bhi gas bi bj bs).1 = bi ∧
      (extendHiAux a b ahi bhi gas bi bj bs).2.1 = bj ∧
      bs ≤ (extendHiAux a b ahi bhi gas bi bj bs).2.2 ∧
      ((extendHiAux a b ahi bhi gas bi bj bs).2.2 ≠ bs →
        bi + (extendHiAux a b ahi bhi gas bi bj bs).2.2 ≤ ahi ∧
        bj + (extendHiAux a b ahi bhi gas bi bj bs).2.2 ≤ bhi) := by
  intro gas
  induction gas with
  | zero =>
    intro bi bj bs
    exact ⟨rfl, rfl, Nat.le_refl bs, fun h => absurd rfl h⟩
  | succ g ih =>
    intro bi bj bs
    by_cases hg : bi + bs < ahi ∧ bj + bs < bhi ∧ aget a (bi + bs) = aget b (bj + bs)
    · rw [show extendHiAux a b ahi bhi (g + 1) bi bj bs =
          extendHiAux a b ahi bhi g bi bj (bs + 1) from by simp [extendHiAux, hg]]
      obtain ⟨e1, e2, e3, e4⟩ := ih bi bj (bs + 1)
      refine ⟨e1, e2, by omega, fun _ => ?_⟩
      by_cases hch : (extendHiAux a b ahi bhi g bi bj (bs + 1)).2.2 = bs + 1
      · rw [hch]
        omega
      · exact e4 hch
    · rw [show extendHiAux a b ahi bhi (g + 1) bi bj bs = (bi, bj, bs) from by
        simp [extendHiAux, hg]]
      exact ⟨rfl, rfl, Nat.le_refl bs, fun h => absurd rfl h⟩

theorem findLongestMatch_bounds (a b : List Char) (b2jf : Char → List Nat)
    (alo ahi blo bhi : Nat) :
    alo ≤ (findLongestMatch a b b2jf alo ahi blo bhi).1 ∧
    blo ≤ (findLongestMatch a b b2jf alo ahi blo bhi).2.1 ∧
    ((findLongestMatch a b b2jf alo ahi blo bhi).2.2 ≠ 0 →
      (findLongestMatch a b b2jf alo ahi blo bhi).1 +
        (findLongestMatch a b b2jf alo ahi blo bhi).2.2 ≤ ahi ∧
      (findLongestMatch a b b2jf alo ahi blo bhi).2.1 +
        (findLongestMatch a b b2jf alo ahi blo bhi).2.2 ≤ bhi) := by
  obtain ⟨fbi, fbj, fbs, hF⟩ :
      ∃ x y z, flmOuter a b2jf blo bhi (List.range' alo (ahi - alo))
        (fun _ => 0) (alo, blo, 0) = (x, y, z) := ⟨_, _, _, rfl⟩
  obtain ⟨hfbi, hfbj, hfbs, hfbs0⟩ :=
    flmOuter_bounds a b2jf blo bhi alo (ahi - alo) 0 (fun _ => 0) alo blo 0 fbi fbj fbs
      (fun _ => Nat.le_refl 0) (fun v hv => by change 0 + blo ≤ v + 1; omega) (fun _ _ => rfl)
      (Nat.le_refl alo) (Nat.le_refl blo) (fun h => absurd rfl h) (fun _ => ⟨rfl, rfl⟩)
      hF
  have hgoal : findLongestMatch a b b2jf alo ahi blo bhi =
      extendHi a b ahi bhi (extendLo a b alo blo fbi fbj fbs) := by
    unfold findLongestMatch
    rw [hF]
  rw [hgoal]
  obtain ⟨lbi, lbj, lbs, hL⟩ :
      ∃ x y z, extendLo a b alo blo fbi fbj fbs = (x, y, z) := ⟨_, _, _, rfl⟩
  obtain ⟨lsum1, lsum2, hlbi, hlbj, hlbs⟩ := extendLo_bounds a b alo blo fbi fbj fbs hfbi hfbj
  rw [hL] at lsum1 lsum2 hlbi hlbj hlbs ⊢
  dsimp only at lsum1 lsum2 hlbi hlbj hlbs
  have hEH : extendHi a b ahi bhi (lbi, lbj, lbs) =
      extendHiAux a b ahi bhi (ahi - (lbi + lbs)) lbi lbj lbs := rfl
  rw [hEH]
  obtain ⟨e1, e2, e3, e4⟩ := extendHiAux_bounds a b ahi bhi (ahi - (lbi + lbs)) lbi lbj lbs
  refine ⟨by rw [e1]; exact hlbi, by rw [e2]; exact hlbj, fun hne => ?_⟩
  rw [e1, e2]
  by_cases hch : (extendHiAux a b ahi bhi (ahi - (lbi + lbs)) lbi lbj lbs).2.2 = lbs
  · rw [hch] at hne ⊢
    by_cases hf0 : fbs = 0
    · obtain ⟨hfa, hfb⟩ := hfbs0 hf0
      subst hfa
      subst hfb
      exfalso
      omega
    · obtain ⟨hs1, hs2⟩ := hfbs hf0
      constructor
      · omega
      · omega
  · exact e4 hch

theorem matchingSumAux_zero_of_le (a b : List Char) (b2jf : Char → List Nat)
    (f alo ahi blo bhi : Nat) (h : ahi ≤ alo) :
    matchingSumAux a b b2jf f alo ahi blo bhi = 0 := by
  cases f with
  | zero => rfl
  | succ f =>
    rw [matchingSumAux_succ]
    have hk : (findLongestMatch a b b2jf alo ahi blo bhi).2.2 = 0 := by
      by_contra hk
      obtain ⟨h1, _, h3⟩ := findLongestMatch_bounds a b b2jf alo ahi blo bhi
      have := (h3 hk).1
      omega
    rw [if_pos hk]

/-- Any fuel at least the span of the `a`-range computes the same matching
sum: the `a.length` fuel used by `matchingSum` is exactly the initial span,
so the model agrees with the fuel-free recursion of `get_matching_blocks`. -/
theorem matchingSumAux_fuel (a b : List Char) (b2jf : Char → List Nat) :
    ∀ (fuel fuel' alo ahi blo bhi : Nat), ahi - alo ≤ fuel → ahi - alo ≤ fuel' →
      matchingSumAux a b b2jf fuel alo ahi blo bhi =
        matchingSumAux a b b2jf fuel' alo ahi blo bhi := by
  intro fuel
  induction fuel with
  | zero =>
    intro fuel' alo ahi blo bhi h h'
    have hle : ahi ≤ alo := by omega
    rw [matchingSumAux_zero_of_le a b b2jf 0 alo ahi blo bhi hle,
      matchingSumAux_zero_of_le a b b2jf fuel' alo ahi blo bhi hle]
  | succ f ih =>
    intro fuel' alo ahi blo bhi h h'
    cases fuel' with
    | zero =>
      have hle : ahi ≤ alo := by omega
      rw [matchingSumAux_zero_of_le a b b2jf (f + 1) alo ahi blo bhi hle,
        matchingSumAux_zero_of_le a b b2jf 0 alo ahi blo bhi hle]
    | succ f' =>
      rw [matchingSumAux_succ, matchingSumAux_succ]
      by_cases hk : (findLongestMatch a b b2jf alo ahi blo bhi).2.2 = 0
      · rw [if_pos hk, if_pos hk]
      · rw [if_neg hk, if_neg hk]
        obtain ⟨hb1, hb2, hb3⟩ := findLongestMatch_bounds a b b2jf alo ahi blo bhi
        obtain ⟨hs1, hs2⟩ := hb3 hk
        congr 1
        · congr 1
          split
          · next hguard =>
            exact ih f' alo (findLongestMatch a b b2jf alo ahi blo bhi).1
              blo (findLongestMatch a b b2jf alo ahi blo bhi).2.1
              (by omega) (by omega)
          · rfl
        · split
          · next hguard =>
            exact ih f'
              ((findLongestMatch a b b2jf alo ahi blo bhi).1 +
                (findLongestMatch a b b2jf alo ahi blo bhi).2.2) ahi
              ((findLongestMatch a b b2jf alo ahi blo bhi).2.1 +
                (findLongestMatch a b b2jf alo ahi blo bhi).2.2) bhi
              (by omega) (by omega)
          · rfl

/-- `matchingSum`'s fuel is invisible: any fuel covering the initial span
computes the same value. -/
theorem matchingSum_eq_any_fuel (a b : List Char) (fuel : Nat) (h : a.length ≤ fuel) :
    matchingSum a b = matchingSumAux a b (b2j b) fuel 0 a.length 0 b.length :=
  matchingSumAux_fuel a b (b2j b) a.length fuel 0 a.length 0 b.length
    (by omega) (by omega)

/-! ## `ratio x x = 1` for every string

Above the autojunk threshold `b2j` may drop popular characters, so the
dynamic-programming fold alone need not reach the full diagonal — but it
never settles off it.  Membership of a position in any `b2j` chain fixes
the character at that position, and `__chain_b` purges a character either
wholly or not at all, so a chain the purged map can build between positions
`u < v` of the same string forces an equally long run of self-kept
positions ending at both `u` and `v`; the diagonal entry mirroring that
run is scanned no later than the off-diagonal one (earlier row for `u`,
earlier `j` within the row for `v`), so by the time the off-diagonal chain
is scored, `bestsize` is already at least as large and the `k > bestsize`
update never fires off the diagonal.  With `isjunk=None` the junk set is
empty, so the two extension loops then grow the diagonal best block to the
whole range, and the matching total is the full length. -/

/-- Length of the run of consecutive self-kept positions (positions still
present in their own character's `b2j` chain) ending at `p`. -/
def selfRun (a : List Char) (b2jf : Char → List Nat) : Nat → Nat
  | 0 => if 0 ∈ b2jf (aget a 0) then 1 else 0
  | p + 1 => if p + 1 ∈ b2jf (aget a (p + 1)) then selfRun a b2jf p + 1 else 0

/-- The autojunk purge is per character: a character's chain is either
dropped entirely or kept entirely. -/
theorem b2j_uniform (a : List Char) (c : Char) :
    b2j a c = [] ∨ b2j a c = positions a c := by
  unfold b2j
  by_cases h : 200 ≤ a.length ∧ a.length / 100 + 1 < countIn a c
  · exact Or.inl (if_pos h)
  · exact Or.inr (if_neg h)

/-- Membership in a uniform chain map determines position range and
character. -/
theorem mem_b2jf_sound {a : List Char} {b2jf : Char → List Nat}
    (H : ∀ c, b2jf c = [] ∨ b2jf c = positions a c) {c : Char} {j : Nat}
    (h : j ∈ b2jf c) : j < a.length ∧ aget a j = c := by
  rcases H c with h0 | h0
  · rw [h0] at h
    exact absurd h (List.not_mem_nil j)
  · rw [h0] at h
    exact mem_positions.1 h

/-- A position listed in any chain is listed in its own character's chain. -/
theorem mem_b2jf_self {a : List Char} {b2jf : Char → List Nat}
    (H : ∀ c, b2jf c = [] ∨ b2jf c = positions a c) {c : Char} {j : Nat}
    (h : j ∈ b2jf c) : j ∈ b2jf (aget a j) := by
  rw [(mem_b2jf_sound H h).2]
  exact h

/-- A nonempty chain lists every position of its character. -/
theorem mem_b2jf_transfer {a : List Char} {b2jf : Char → List Nat}
    (H : ∀ c, b2jf c = [] ∨ b2jf c = positions a c) {c : Char} {j p : Nat}
    (h : j ∈ b2jf c) (hp : p < a.length) (hc : aget a p = c) : p ∈ b2jf c := by
  rcases H c with h0 | h0
  · rw [h0] at h
    exact absurd h (List.not_mem_nil j)
  · rw [h0]
    exact mem_positions.2 ⟨hp, hc⟩

/-- A purged position ends no self-run. -/
theorem selfRun_not_kept {a : List Char} {b2jf : Char → List Nat} {p : Nat}
    (h : ¬ p ∈ b2jf (aget a p)) : selfRun a b2jf p = 0 := by
  cases p with
  | zero => simp only [selfRun, if_neg h]
  | succ q => simp only [selfRun, if_neg h]

/-- `k` consecutive self-kept positions ending at `p` witness
`selfRun p ≥ k`. -/
theorem selfRun_ge {a : List Char} {b2jf : Char → List Nat} :
    ∀ (p k : Nat), k ≤ p + 1 →
      (∀ s, s < k → p - s ∈ b2jf (aget a (p - s))) → k ≤ selfRun a b2jf p := by
  intro p
  induction p with
  | zero =>
    intro k hk hc
    cases k with
    | zero => exact Nat.zero_le _
    | succ k' =>
      have h0 := hc 0 (by omega)
      simp only [Nat.sub_zero] at h0
      simp only [selfRun, if_pos h0]
      omega
  | succ q ih =>
    intro k hk hc
    cases k with
    | zero => exact Nat.zero_le _
    | succ k' =>
      have h0 := hc 0 (by omega)
      simp only [Nat.sub_zero] at h0
      simp only [selfRun, if_pos h0]
      have htail : ∀ s, s < k' → q - s ∈ b2jf (aget a (q - s)) := by
        intro s hs
        have hstep := hc (s + 1) (by omega)
        have e : q + 1 - (s + 1) = q - s := by omega
        rw [e] at hstep
        exact hstep
      exact Nat.succ_le_succ (ih k' (by omega) htail)

/-- One row of the fold on a string against itself, for any uniform
(possibly autojunk-purged) chain map: the best triple stays on the
diagonal, its size dominates every completed self-run, the new row records
sound bounded chains, and the new diagonal entry is at least the current
self-run. -/
theorem flmInner_diagGen (a : List Char) (b2jf : Char → List Nat)
    (H : ∀ c, b2jf c = [] ∨ b2jf c = positions a c)
    (t : Nat) (ht : t < a.length) (row : Nat → Nat)
    (hr1 : ∀ v, row v ≤ v + 1) (hr2 : ∀ v, row v ≤ t)
    (hr3 : ∀ v s, s < row v → v - s ∈ b2jf (aget a (t - 1 - s)))
    (hrd : 1 ≤ t → selfRun a b2jf (t - 1) ≤ row (t - 1)) :
    ∀ (js : List Nat) (new : Nat → Nat) (bi bj bs : Nat),
      js.Pairwise (· < ·) →
      (∀ j ∈ js, j ∈ b2jf (aget a t)) →
      (∀ v, new v ≤ v + 1) → (∀ v, new v ≤ t + 1) →
      (∀ v s, s < new v → v - s ∈ b2jf (aget a (t - s))) →
      bi = bj →
      (∀ p, p < t → selfRun a b2jf p ≤ bs) →
      (t ∈ js ∨ (selfRun a b2jf t ≤ bs ∧ selfRun a b2jf t ≤ new t)) →
      (flmInner t row js (new, (bi, bj, bs))).2.1 =
          (flmInner t row js (new, (bi, bj, bs))).2.2.1 ∧
      (∀ p, p < t + 1 →
          selfRun a b2jf p ≤ (flmInner t row js (new, (bi, bj, bs))).2.2.2) ∧
      (∀ v, (flmInner t row js (new, (bi, bj, bs))).1 v ≤ v + 1) ∧
      (∀ v, (flmInner t row js (new, (bi, bj, bs))).1 v ≤ t + 1) ∧
      (∀ v s, s < (flmInner t row js (new, (bi, bj, bs))).1 v →
          v - s ∈ b2jf (aget a (t - s))) ∧
      selfRun a b2jf t ≤ (flmInner t row js (new, (bi, bj, bs))).1 t := by
  intro js
  induction js with
  | nil =>
    intro new bi bj bs _ _ hn1 hn2 hn3 hbibj hbsp hphase
    rcases hphase with habs | ⟨hp1, hp2⟩
    · exact absurd habs (List.not_mem_nil t)
    · have hbs' : ∀ p, p < t + 1 → selfRun a b2jf p ≤ bs := by
        intro p hp
        by_cases hpt : p = t
        · subst hpt
          exact hp1
        · exact hbsp p (by omega)
      exact ⟨hbibj, hbs', hn1, hn2, hn3, hp2⟩
  | cons j js' ih =>
    intro new bi bj bs hpair hmem hn1 hn2 hn3 hbibj hbsp hphase
    have hpair' : js'.Pairwise (· < ·) := (List.pairwise_cons.1 hpair).2
    have hjlt : ∀ x ∈ js', j < x := (List.pairwise_cons.1 hpair).1
    have hmem' : ∀ x ∈ js', x ∈ b2jf (aget a t) :=
      fun x hx => hmem x (List.mem_cons_of_mem j hx)
    have hjmem : j ∈ b2jf (aget a t) := hmem j (List.mem_cons_self j js')
    rw [flmInner_cons]
    set k := (if j = 0 then 0 else row (j - 1)) + 1 with hkdef
    have hku : k ≤ j + 1 := by
      rw [hkdef]
      by_cases hj0 : j = 0
      · rw [if_pos hj0]
        omega
      · rw [if_neg hj0]
        have := hr1 (j - 1)
        omega
    have hkt : k ≤ t + 1 := by
      rw [hkdef]
      by_cases hj0 : j = 0
      · rw [if_pos hj0]
        omega
      · rw [if_neg hj0]
        have := hr2 (j - 1)
        omega
    have hCH : ∀ s, s < k → j - s ∈ b2jf (aget a (t - s)) := by
      intro s hs
      cases s with
      | zero => simpa using hjmem
      | succ q =>
        have hj0 : ¬ j = 0 := by
          intro hj0
          rw [hkdef, if_pos hj0] at hs
          omega
        have hq : q < row (j - 1) := by
          rw [hkdef, if_neg hj0] at hs
          omega
        have hchain := hr3 (j - 1) q hq
        have e1 : j - (q + 1) = j - 1 - q := by omega
        have e2 : t - (q + 1) = t - 1 - q := by omega
        rw [e1, e2]
        exact hchain
    have hKept : ∀ s, s < k → j - s ∈ b2jf (aget a (j - s)) :=
      fun s hs => mem_b2jf_self H (hCH s hs)
    have hnew1 : ∀ v, (fun v => if v = j then k else new v) v ≤ v + 1 := by
      intro v
      by_cases hv : v = j
      · subst hv
        simpa using hku
      · simpa [hv] using hn1 v
    have hnew2 : ∀ v, (fun v => if v = j then k else new v) v ≤ t + 1 := by
      intro v
      by_cases hv : v = j
      · subst hv
        simpa using hkt
      · simpa [hv] using hn2 v
    have hnew3 : ∀ v s, s < (fun v => if v = j then k else new v) v →
        v - s ∈ b2jf (aget a (t - s)) := by
      intro v s hs
      by_cases hv : v = j
      · rw [show (fun x => if x = j then k else new x) v = k from by simp [hv]] at hs
        rw [hv]
        exact hCH s hs
      · rw [show (fun x => if x = j then k else new x) v = new v from by simp [hv]] at hs
        exact hn3 v s hs
    rcases Nat.lt_trichotomy j t with hjt | hjt | hjt
    · -- strictly left of the diagonal: the mirrored self-run at `j`,
      -- completed in an earlier row, already bounds `bestsize`
      have hsr : k ≤ selfRun a b2jf j := selfRun_ge j k hku hKept
      have hkbs : k ≤ bs := Nat.le_trans hsr (hbsp j hjt)
      rw [if_neg (show ¬ bs < k by omega)]
      have hphase' : t ∈ js' ∨ (selfRun a b2jf t ≤ bs ∧
          selfRun a b2jf t ≤ (fun v => if v = j then k else new v) t) := by
        rcases hphase with hin | ⟨hp1, hp2⟩
        · rcases List.mem_cons.1 hin with he | hin'
          · exact absurd he (by omega)
          · exact Or.inl hin'
        · refine Or.inr ⟨hp1, ?_⟩
          rw [show (fun v => if v = j then k else new v) t = new t from by
            simp [show ¬ t = j from by omega]]
          exact hp2
      exact ih (fun v => if v = j then k else new v) bi bj bs hpair' hmem'
        hnew1 hnew2 hnew3 hbibj hbsp hphase'
    · -- the diagonal entry: any update lands on the diagonal, and the
      -- resulting size is at least the current self-run
      subst hjt
      have hst : selfRun a b2jf j ≤ k := by
        by_cases hj0 : j = 0
        · have h1 : selfRun a b2jf j ≤ 1 := by
            subst hj0
            by_cases h0 : 0 ∈ b2jf (aget a 0)
            · simp only [selfRun, if_pos h0]
              omega
            · simp only [selfRun, if_neg h0]
              omega
          have hk1 : 1 ≤ k := by
            rw [hkdef]
            exact Nat.succ_le_succ (Nat.zero_le _)
          omega
        · obtain ⟨q, hq⟩ : ∃ q, j = q + 1 := ⟨j - 1, by omega⟩
          have hkept : q + 1 ∈ b2jf (aget a (q + 1)) := by
            rw [← hq]
            exact hjmem
          have hsq : selfRun a b2jf j = selfRun a b2jf q + 1 := by
            rw [hq]
            simp only [selfRun, if_pos hkept]
          have hrowq : selfRun a b2jf q ≤ row q := by
            have hd := hrd (by omega)
            rw [hq] at hd
            simpa using hd
          rw [hsq, hkdef, if_neg hj0, hq]
          simp only [Nat.add_sub_cancel]
          omega
      by_cases hup : bs < k
      · rw [if_pos hup]
        have hbsp' : ∀ p, p < j → selfRun a b2jf p ≤ k := by
          intro p hp
          have := hbsp p hp
          omega
        have hphase' : j ∈ js' ∨ (selfRun a b2jf j ≤ k ∧
            selfRun a b2jf j ≤ (fun v => if v = j then k else new v) j) := by
          refine Or.inr ⟨hst, ?_⟩
          rw [show (fun v => if v = j then k else new v) j = k from by simp]
          exact hst
        exact ih (fun v => if v = j then k else new v) (j + 1 - k) (j + 1 - k) k
          hpair' hmem' hnew1 hnew2 hnew3 rfl hbsp' hphase'
      · rw [if_neg hup]
        have hphase' : j ∈ js' ∨ (selfRun a b2jf j ≤ bs ∧
            selfRun a b2jf j ≤ (fun v => if v = j then k else new v) j) := by
          refine Or.inr ⟨by omega, ?_⟩
          rw [show (fun v => if v = j then k else new v) j = k from by simp]
          exact hst
        exact ih (fun v => if v = j then k else new v) bi bj bs
          hpair' hmem' hnew1 hnew2 hnew3 hbibj hbsp hphase'
    · -- strictly right of the diagonal: the mirrored self-run at `t` was
      -- scored earlier in this very row, so `bestsize` already dominates
      rcases hphase with hin | ⟨hp1, hp2⟩
      · exfalso
        rcases List.mem_cons.1 hin with he | hin'
        · omega
        · exact absurd (hjlt t hin') (by omega)
      · have hTch : ∀ s, s < k → t - s ∈ b2jf (aget a (t - s)) := by
          intro s hs
          exact mem_b2jf_transfer H (hCH s hs) (by omega) rfl
        have hsrt : k ≤ selfRun a b2jf t := selfRun_ge t k hkt hTch
        have hkbs : k ≤ bs := Nat.le_trans hsrt hp1
        rw [if_neg (show ¬ bs < k by omega)]
        have hphase' : t ∈ js' ∨ (selfRun a b2jf t ≤ bs ∧
            selfRun a b2jf t ≤ (fun v => if v = j then k else new v) t) := by
          refine Or.inr ⟨hp1, ?_⟩
          rw [show (fun v => if v = j then k else new v) t = new t from by
            simp [show ¬ t = j from by omega]]
          exact hp2
        exact ih (fun v => if v = j then k else new v) bi bj bs
          hpair' hmem' hnew1 hnew2 hnew3 hbibj hbsp hphase'

/-- The outer fold of `find_longest_match` on a string against itself keeps
the best triple on the diagonal, for any uniform (possibly autojunk-purged)
chain map. -/
theorem flmOuter_diagGen (a : List Char) (b2jf : Char → List Nat)
    (H : ∀ c, b2jf c = [] ∨ b2jf c = positions a c) :
    ∀ (m t : Nat) (row : Nat → Nat) (bi bj bs : Nat),
      t + m = a.length →
      (∀ v, row v ≤ v + 1) → (∀ v, row v ≤ t) →
      (∀ v s, s < row v → v - s ∈ b2jf (aget a (t - 1 - s))) →
      (1 ≤ t → selfRun a b2jf (t - 1) ≤ row (t - 1)) →
      bi = bj →
      (∀ p, p < t → selfRun a b2jf p ≤ bs) →
      (flmOuter a b2jf 0 a.length (List.range' t m) row (bi, bj, bs)).1 =
        (flmOuter a b2jf 0 a.length (List.range' t m) row (bi, bj, bs)).2.1 := by
  intro m
  induction m with
  | zero =>
    intro t row bi bj bs _ _ _ _ _ hbibj _
    rw [List.range'_zero]
    exact hbibj
  | succ m ih =>
    intro t row bi bj bs htm hr1 hr2 hr3 hrd hbibj hbsp
    have ht : t < a.length := by omega
    rw [List.range'_succ, flmOuter_cons]
    by_cases hkt : t ∈ b2jf (aget a t)
    · have hpos : b2jf (aget a t) = positions a (aget a t) := by
        rcases H (aget a t) with h0 | h0
        · rw [h0] at hkt
          exact absurd hkt (List.not_mem_nil t)
        · exact h0
      have hjs : selectJs 0 a.length (b2jf (aget a t)) = positions a (aget a t) := by
        rw [hpos]
        exact selectJs_id (fun d hd => (mem_positions.1 hd).1)
      rw [hjs]
      obtain ⟨g1, g2, g3, g4, g5, g6⟩ :=
        flmInner_diagGen a b2jf H t ht row hr1 hr2 hr3 hrd
          (positions a (aget a t)) (fun _ => 0) bi bj bs
          (pairwise_positions a (aget a t))
          (fun d hd => by rw [hpos]; exact hd)
          (fun _ => Nat.zero_le _) (fun _ => Nat.zero_le _)
          (fun v s hs => absurd hs (Nat.not_lt_zero s))
          hbibj hbsp
          (Or.inl (mem_positions.2 ⟨ht, rfl⟩))
      obtain ⟨bi', bj', bs', hB⟩ :
          ∃ x y z, (flmInner t row (positions a (aget a t))
            ((fun _ => 0), (bi, bj, bs))).2 = (x, y, z) := ⟨_, _, _, rfl⟩
      rw [hB] at g1 g2
      rw [hB]
      exact ih (t + 1)
        (flmInner t row (positions a (aget a t)) ((fun _ => 0), (bi, bj, bs))).1
        bi' bj' bs' (by omega) g3 g4
        (fun v s hs => g5 v s hs) (fun _ => g6) g1 (fun p hp => g2 p hp)
    · have hempty : b2jf (aget a t) = [] := by
        rcases H (aget a t) with h0 | h0
        · exact h0
        · exfalso
          apply hkt
          rw [h0]
          exact mem_positions.2 ⟨ht, rfl⟩
      rw [hempty]
      have hsr0 : selfRun a b2jf t = 0 := selfRun_not_kept hkt
      exact ih (t + 1) (fun _ => 0) bi bj bs (by omega)
        (fun _ => Nat.zero_le _) (fun _ => Nat.zero_le _)
        (fun v s hs => absurd hs (Nat.not_lt_zero s))
        (fun _ => by
          rw [show t + 1 - 1 = t from rfl, hsr0])
        hbibj
        (fun p hp => by
          by_cases hpt : p = t
          · subst hpt
            rw [hsr0]
            exact Nat.zero_le _
          · exact hbsp p (by omega))

/-- On a string against itself the first extension loop drags a diagonal
block down to the start of the range. -/
theorem extendLo_diag (a : List Char) :
    ∀ (m s : Nat), extendLo a a 0 0 m m s = (0, 0, s + m) := by
  intro m
  induction m with
  | zero =>
    intro s
    rfl
  | succ q ih =>
    intro s
    rw [show extendLo a a 0 0 (q + 1) (q + 1) s = extendLo a a 0 0 q q (s + 1) from by
      show (if 0 < q + 1 ∧ 0 < q + 1 ∧ aget a q = aget a (q + 1 - 1) then
          extendLo a a 0 0 q (q + 1 - 1) (s + 1)
        else (q + 1, q + 1, s)) = extendLo a a 0 0 q q (s + 1)
      rw [if_pos ⟨Nat.succ_pos q, Nat.succ_pos q, by rw [Nat.add_sub_cancel]⟩,
        Nat.add_sub_cancel]]
    rw [ih (s + 1), show s + 1 + q = s + (q + 1) from by omega]

/-- On a string against itself the second extension loop grows a diagonal
block anchored at `0` to the whole range. -/
theorem extendHiAux_diag (a : List Char) :
    ∀ (g s : Nat), s + g = a.length →
      extendHiAux a a a.length a.length g 0 0 s = (0, 0, a.length) := by
  intro g
  induction g with
  | zero =>
    intro s hs
    show ((0 : Nat), (0 : Nat), s) = ((0 : Nat), (0 : Nat), a.length)
    rw [show s = a.length from by omega]
  | succ g' ih =>
    intro s hs
    rw [show extendHiAux a a a.length a.length (g' + 1) 0 0 s =
        extendHiAux a a a.length a.length g' 0 0 (s + 1) from by
      show (if 0 + s < a.length ∧ 0 + s < a.length ∧ aget a (0 + s) = aget a (0 + s) then
          extendHiAux a a a.length a.length g' 0 0 (s + 1)
        else (0, 0, s)) = extendHiAux a a a.length a.length g' 0 0 (s + 1)
      rw [if_pos ⟨by omega, by omega, rfl⟩]]
    exact ih (s + 1) (by omega)

/-- `find_longest_match` on a string against itself always returns the whole
range: the fold's best block is diagonal, and the extension loops stretch it
to the full diagonal. -/
theorem findLongestMatch_self (a : List Char) :
    findLongestMatch a a (b2j a) 0 a.length 0 a.length = (0, 0, a.length) := by
  obtain ⟨fbi, fbj, fbs, hF⟩ :
      ∃ x y z, flmOuter a (b2j a) 0 a.length (List.range' 0 a.length)
        (fun _ => 0) (0, 0, 0) = (x, y, z) := ⟨_, _, _, rfl⟩
  have hdiag : fbi = fbj := by
    have h := flmOuter_diagGen a (b2j a) (b2j_uniform a) a.length 0 (fun _ => 0) 0 0 0
      (by omega) (fun _ => Nat.zero_le _) (fun _ => Nat.le_refl 0)
      (fun v s hs => absurd hs (Nat.not_lt_zero s)) (fun h1 => absurd h1 (by omega))
      rfl (fun p hp => absurd hp (Nat.not_lt_zero p))
    rw [hF] at h
    exact h
  obtain ⟨hfbi, hfbj, hfbs, hfbs0⟩ :=
    flmOuter_bounds a (b2j a) 0 a.length 0 a.length 0 (fun _ => 0) 0 0 0 fbi fbj fbs
      (fun _ => Nat.le_refl 0) (fun v hv => by change 0 + 0 ≤ v + 1; omega) (fun _ _ => rfl)
      (Nat.le_refl 0) (Nat.le_refl 0) (fun h => absurd rfl h) (fun _ => ⟨rfl, rfl⟩)
      hF
  have hle : fbs + fbi ≤ a.length := by
    by_cases h0 : fbs = 0
    · obtain ⟨e1, e2⟩ := hfbs0 h0
      omega
    · obtain ⟨e1, e2⟩ := hfbs h0
      omega
  have hgoal : findLongestMatch a a (b2j a) 0 a.length 0 a.length =
      extendHi a a a.length a.length (extendLo a a 0 0 fbi fbj fbs) := by
    unfold findLongestMatch
    rw [Nat.sub_zero, hF]
  rw [hgoal, ← hdiag, extendLo_diag]
  show extendHiAux a a a.length a.length (a.length - (0 + (fbs + fbi))) 0 0 (fbs + fbi) =
    (0, 0, a.length)
  rw [Nat.zero_add]
  exact extendHiAux_diag a (a.length - (fbs + fbi)) (fbs + fbi) (by omega)

/-- The matching total of a string against itself is its full length. -/
theorem matchingSum_self (a : List Char) : matchingSum a a = a.length := by
  unfold matchingSum
  cases hn : a.length with
  | zero => rfl
  | succ m =>
    have hf := findLongestMatch_self a
    rw [hn] at hf
    rw [matchingSumAux_succ]
    simp [hf]

/-- Identity of the similarity score, with no length restriction:
`SequenceMatcher(None, x, x).ratio() == 1.0` for every string `x`. -/
theorem ratio_self (x : String) : ratio x x = 1 := by
  unfold ratio ratioL calcRatio
  by_cases h0 : x.data.length = 0
  · rw [if_pos (by omega)]
  · rw [if_neg (by omega), matchingSum_self x.data, Rat.mkRat_eq_div]
    have h0' : x.length ≠ 0 := h0
    have hne : ((x.length : ℚ)) ≠ 0 := Nat.cast_ne_zero.2 h0'
    push_cast
    field_simp
    ring

/-! ## Concrete inputs used by the claims -/


/-- A one-file tree, `C:\docs\report.txt`. -/
def sampleTree : Entry :=
  .dir "C:" true (el [.dir "docs" true (el [.file "report.txt"])])

/-- Four sibling directories each holding a file named `a.txt`. -/
def treeFourCopies : Entry :=
  .dir "C:" true (el [.dir "d1" true (el [.file "a.txt"]),
    .dir "d2" true (el [.file "a.txt"]), .dir "d3" true (el [.file "a.txt"]),
    .dir "d4" true (el [.file "a.txt"])])

/-- Two sibling directories each holding a file named `a.txt`. -/
def treeTwoCopies : Entry :=
  .dir "C:" true (el [.dir "d1" true (el [.file "a.txt"]),
    .dir "d2" true (el [.file "a.txt"])])

/-- An unreadable directory holding `report.txt` next to a readable sibling
also holding `report.txt`. -/
def treeUnreadableSibling : Entry :=
  .dir "C:" true (el [.dir "locked" false (el [.file "report.txt"]),
    .dir "ok" true (el [.file "report.txt"])])

/-- Eleven distinctly named files whose names all score `2/3 ≥ 0.6` against
the query `"aaa"`. -/
def treeElevenFiles : Entry :=
  .dir "C:" true (el [.dir "docs" true (el [.file "aa0", .file "aa1", .file "aa2",
    .file "aa3", .file "aa4", .file "aa5", .file "aa6", .file "aa7", .file "aa8",
    .file "aa9", .file "aaz"])])

/-! ## Remaining helper lemmas -/

theorem nodup_of_length_le_one {α : Type} {l : List α} (h : l.length ≤ 1) : l.Nodup := by
  match l with
  | [] => exact List.nodup_nil
  | [a] => simp
  | a :: b :: rest => simp at h

theorem eq_fst_of_snd_nodup {l : List (String × String)} {m m' p : String}
    (h : (l.map Prod.snd).Nodup) (h1 : (m, p) ∈ l) (h2 : (m', p) ∈ l) : m = m' := by
  induction l with
  | nil => simp at h1
  | cons c rest ih =>
    simp only [List.map_cons, List.nodup_cons] at h
    rcases List.mem_cons.1 h1 with e1 | e1 <;> rcases List.mem_cons.1 h2 with e2 | e2
    · have := e1.trans e2.symm
      exact congrArg Prod.fst this
    · exfalso
      apply h.1
      rw [← e1]
      exact List.mem_map.2 ⟨(m', p), e2, rfl⟩
    · exfalso
      apply h.1
      rw [← e2]
      exact List.mem_map.2 ⟨(m, p), e1, rfl⟩
    · exact ih h.2 e1 e2

/-! ## The claims -/

/-- C1: the spec says `search_file_by_name(filename, root_dir)` returns the
ordered sequence of full paths of the best-matching files (defaults
`k = 10`, `cutoff = 0.6`).  The code cannot return anything: line 281 calls
`get_close_matches`, a name `server.py` never imports, so every call raises
`NameError` (and line 295 returns the undefined `matched_file` besides).
Evaluated here on a concrete query and tree. -/
theorem C1_call_raises_NameError :
    search_file_by_name "report.txt" "C:\\" (some sampleTree) =
      Except.error (PyErr.nameError "get_close_matches") := rfl

/-- C2 counterexample: four files named `a.txt` in distinct directories all
score 1 against the query `a.txt`; `get_close_matches` returns the name
four times and the path loop appends every matching path for each
occurrence, so the result has 16 entries — more than `k = 10`. -/
theorem C2_counterexample :
    ¬ ((searchPipeline "a.txt" "C:\\" (some treeFourCopies)).length ≤ 10) := by decide

/-- C2 amended: every returned path comes from a collected candidate whose
name scores at least the `0.6` cutoff against the query, and when all
traversed file names are distinct the result has at most `10` entries;
with duplicated file names the list can exceed `10`. -/
theorem C2_cutoff_and_conditional_bound (q rootPath : String) (root : Option Entry) :
    (∀ p ∈ searchPipeline q rootPath root,
      ∃ c ∈ collectCandidates rootPath root, c.2 = p ∧ mkRat 3 5 ≤ ratio c.1 q) ∧
    (((collectCandidates rootPath root).map Prod.fst).Nodup →
      (searchPipeline q rootPath root).length ≤ 10) := by
  constructor
  · intro p hp
    simp only [searchPipeline, List.mem_flatMap] at hp
    obtain ⟨m, hm, hpm⟩ := hp
    have h1 := mem_close_matches hm
    have h2 := mem_matchedPathsFor.1 hpm
    exact ⟨(m, p), h2, rfl, h1.2⟩
  · intro hnd
    simp only [searchPipeline]
    refine le_trans (length_flatMap_le _ _ ?_) (length_close_matches_le _ _ _ _)
    intro m _
    exact length_matchedPathsFor_le_one hnd

/-- C2 witness: on the one-file tree the file names are distinct and the
bound holds. -/
theorem C2_witness :
    ((collectCandidates "C:\\" (some sampleTree)).map Prod.fst).Nodup ∧
    (searchPipeline "report.txt" "C:\\" (some sampleTree)).length ≤ 10 :=
  ⟨by decide,
    (C2_cutoff_and_conditional_bound "report.txt" "C:\\" (some sampleTree)).2 (by decide)⟩

/-- C3 counterexample: with a nonexistent root the walk silently yields
nothing, the match pipeline computes `[]` (a value, not an error), and the
only failure the written call ever raises is the unrelated `NameError`
after the walk — there is no `InvalidRoot` validation at all. -/
theorem C3_counterexample :
    searchPipeline "report.txt" "C:\\" none = [] ∧
    search_file_by_name "report.txt" "C:\\" none =
      Except.error (PyErr.nameError "get_close_matches") := ⟨rfl, rfl⟩

/-- C3 amended: the code performs no root validation: a missing root and a
root that is a regular file both make `os.walk` yield nothing, and the
match pipeline computes an empty list for every query. -/
theorem C3_no_root_validation (q rootPath : String) :
    searchPipeline q rootPath none = [] ∧
    ∀ n : String, searchPipeline q rootPath (some (.file n)) = [] :=
  ⟨rfl, fun _ => rfl⟩

/-- C4: a per-directory enumeration failure is isolated to its subtree:
pruning every unreadable directory from the tree leaves the search result
unchanged (so the walk continues past it, nothing aborts, and matches from
readable siblings survive); concretely, with `C:\locked` unreadable the
match inside the readable sibling `C:\ok` is still found. -/
theorem C4_unreadable_subtree_isolated :
    (∀ (q rootPath : String) (e : Entry),
      searchPipeline q rootPath (some (pruneUnreadable e)) =
        searchPipeline q rootPath (some e)) ∧
    searchPipeline "report.txt" "C:\\" (some treeUnreadableSibling) =
      ["C:\\ok\\report.txt"] :=
  ⟨fun q rp e => searchPipeline_prune q rp e, by decide⟩

/-- C5 counterexample: eleven files whose names all pass the cutoff; the
scored list `result` inside `get_close_matches` retains all eleven before
any truncation, and the `candidates` list already holds one entry per
traversed file — memory grows with the tree, not with `K`. -/
theorem C5_counterexample :
    ¬ ((gcm_scored "aaa"
        ((collectCandidates "C:\\" (some treeElevenFiles)).map Prod.fst)
        (mkRat 3 5)).length ≤ 10) ∧
    (collectCandidates "C:\\" (some treeElevenFiles)).length = 11 :=
  ⟨by decide, by decide⟩

/-- C5 amended: the code is collect-all-then-filter: the `candidates` list
always holds exactly one pair per reachable file (memory proportional to
the tree), and only the final list of matched names is bounded by `K = 10`. -/
theorem C5_collect_all_then_truncate (q rootPath : String) (root : Option Entry) :
    (collectCandidates rootPath root).length = reachableFilesRoot root ∧
    (get_close_matches q ((collectCandidates rootPath root).map Prod.fst) 10
      (mkRat 3 5)).length ≤ 10 :=
  ⟨collect_length rootPath root, length_close_matches_le _ _ _ _⟩

/-- C6 counterexample: two files named `a.txt` in different directories and
the query `a.txt`: the result lists both full paths twice. -/
theorem C6_counterexample :
    ¬ (searchPipeline "a.txt" "C:\\" (some treeTwoCopies)).Nodup := by decide

/-- C6 amended: when the traversed file names are pairwise distinct (and
hence, as on a real filesystem, the full paths are too), the result
contains no duplicate path. -/
theorem C6_nodup_under_distinct_names (q rootPath : String) (root : Option Entry)
    (hnames : ((collectCandidates rootPath root).map Prod.fst).Nodup)
    (hpaths : ((collectCandidates rootPath root).map Prod.snd).Nodup) :
    (searchPipeline q rootPath root).Nodup := by
  simp only [searchPipeline]
  apply nodup_flatMap
  · exact close_matches_nodup hnames
  · intro m _
    exact nodup_of_length_le_one (length_matchedPathsFor_le_one hnames)
  · intro m _ m' _ hne p hp hp'
    exact hne (eq_fst_of_snd_nodup hpaths (mem_matchedPathsFor.1 hp)
      (mem_matchedPathsFor.1 hp'))

/-- C6 witness: on the one-file tree both hypotheses hold and the result has
no duplicates. -/
theorem C6_witness :
    ((collectCandidates "C:\\" (some sampleTree)).map Prod.fst).Nodup ∧
    ((collectCandidates "C:\\" (some sampleTree)).map Prod.snd).Nodup ∧
    (searchPipeline "report.txt" "C:\\" (some sampleTree)).Nodup :=
  ⟨by decide, by decide,
    C6_nodup_under_distinct_names "report.txt" "C:\\" (some sampleTree)
      (by decide) (by decide)⟩

/-- C7: when nothing scores at or above the cutoff the pipeline does compute
the empty list, but the call cannot return it: under the intended import
line 295 `return matched_file` names a variable that was never bound (the
list is `matched_files`), raising `NameError`; as written the call already
raises at line 281.  So the claim's "returns an empty sequence, not an
error" fails on the code. -/
theorem C7_empty_case_still_raises :
    searchPipeline "xyzzy123" "C:\\" (some sampleTree) = [] ∧
    search_file_by_name_fixedImport "xyzzy123" "C:\\" (some sampleTree) =
      Except.error (PyErr.nameError "matched_file") :=
  ⟨by decide, rfl⟩

/-- C8 counterexample: the similarity is not symmetric:
`SequenceMatcher(None, "tide", "diet").ratio()` is `0.25` while the swapped
call gives `0.5` — the greedy longest-block decomposition picks different
match occurrences in the two directions. -/
theorem C8_counterexample : ratio "tide" "diet" ≠ ratio "diet" "tide" := by decide

/-- C8 amended: the identity half of the claim holds unconditionally —
`similarity(x, x) = 1` for every name `x`.  Even above the 200-character
autojunk threshold, where the purged chains alone need not find the full
diagonal, the empty junk set lets the extension loops of
`find_longest_match` grow the (always diagonal) best block to the whole
range.  The symmetry half is false. -/
theorem C8_identity (x : String) : ratio x x = 1 :=
  ratio_self x

/-- C9 counterexample: the date/mood/timestamp fields are written raw, so a
comma inside the mood corrupts the record: the written journal row parses
back to four fields, not the three that were logged — the appended text is
not one quote-escaped record of the given fields. -/
theorem C9_counterexample :
    parseRecord (journalRowBody "2025-05-04" "Ha,ppy" "ok") ≠
      ["2025-05-04", "Ha,ppy", "ok"] := by decide

/-- C9 amended: each sink call appends to its file exactly the header row
(exactly when the file did not exist) followed by one newline-terminated
data row; the free-text fields are quote-escaped, so the row parses back to
the original fields whenever the raw fields (date, mood, timestamp) contain
no comma, quote or newline. -/
theorem C9_sinks_append_one_escaped_row
    (date mood log timestamp title message : String)
    (c1 c2 c3 : Option String)
    (hd : CsvClean date) (hm : CsvClean mood) (ht : CsvClean timestamp) :
    (add_log_to_journal date mood log c1 =
      (match c1 with | none => "Date,Mood,Log\n" | some c => c) ++
        (journalRowBody date mood log ++ "\n")) ∧
    parseRecord (journalRowBody date mood log) = [date, mood, log] ∧
    (add_log_to_file timestamp log c2 =
      (match c2 with | none => "Timestamp,Log\n" | some c => c) ++
        (fileRowBody timestamp log ++ "\n")) ∧
    parseRecord (fileRowBody timestamp log) = [timestamp, log] ∧
    (add_reminder timestamp title message c3 =
      (match c3 with | none => "Timestamp,Title,Message\n" | some c => c) ++
        (reminderRowBody timestamp title message ++ "\n")) ∧
    parseRecord (reminderRowBody timestamp title message) = [timestamp, title, message] := by
  refine ⟨?_, parseRecord_journalRow date mood log hd hm, ?_,
    parseRecord_fileRow timestamp log ht, ?_,
    parseRecord_reminderRow timestamp title message ht⟩
  · cases c1 <;> rfl
  · cases c2 <;> rfl
  · cases c3 <;> rfl

/-- C9 witness: concrete fields with quotes and commas in the free text. -/
theorem C9_witness :
    CsvClean "2025-05-04" ∧ CsvClean "Happy" ∧ CsvClean "2025-05-04 22:15:32" ∧
    parseRecord (journalRowBody "2025-05-04" "Happy" "said \"hi\", twice") =
      ["2025-05-04", "Happy", "said \"hi\", twice"] :=
  ⟨by decide, by decide, by decide,
    (C9_sinks_append_one_escaped_row "2025-05-04" "Happy" "said \"hi\", twice"
      "2025-05-04 22:15:32" "Drink Water" "stretch" none none none
      (by decide) (by decide) (by decide)).2.1⟩

/-- C10: line 13's `import datetime` rebinds the name bound at line 4 by
`from datetime import datetime`, so `datetime.strptime` at line 113 raises
`AttributeError` on every input, before the year/month traversal begins:
the call errors, its set of journal files read is empty, and the documented
mood-frequency summary is never produced. -/
theorem C10_strptime_raises_before_reads (from_date to_date : String) (fs : JournalFS) :
    analyze_mood_trend from_date to_date fs =
      (Except.error (PyErr.attributeError "module datetime has no attribute strptime"),
        []) := rfl

end Chatbot
